import Mathlib

/-!
# ttvfs: directory tree, path resolution, mount table and loader dispatch

A shallow embedding of `VFSDir.cpp` and `VFSHelper.cpp`.

* C strings are lists of characters (the terminating NUL byte is left out).
* Objects live in a heap: a `DirBase*` or `File*` is the index of the object in
  the heap, a null pointer is `none`.  Allocation appends to the heap.
* The `Dirs` and `Files` maps are association lists kept in key order.
* A method that writes to the tree takes the heap and returns the new heap
  next to its C++ return value.
* A method called on a pointer that is not a live object returns not-found
  and leaves the heap alone (in C++ the call is undefined).
* The recursion of `DirBase::getDir` and the loop of `DirBase::getFile` run on
  ever shorter rests of the path; they are written with a step bound that is
  set from the path length, and `getDir_unfold` shows that the bound is never
  reached.
* Code outside the sources is a parameter: the path helpers and build
  options (`Tools`), the directory enumerator (`Disk`), the file loaders and
  the archive loaders. An enumeration callback is a function on the heap and
  the user data.
-/

namespace TTVFS

/-! ## Strings -/

/-- A C string, without its terminating NUL byte. -/
abbrev CStr := List Char

/-- The call `strchr(s, '/')`: `none` when `s` has no slash, otherwise the text before
the first slash and the text after it. -/
def strchrSlash : CStr → Option (CStr × CStr)
  | [] => none
  | c :: cs =>
    if c = '/' then some ([], cs)
    else
      match strchrSlash cs with
      | none => none
      | some (t, sub) => some (c :: t, sub)

/-- The loop `while(fn[0] == '.' && fn[1] == '/') fn += 2;`. -/
def skipDotSlash : CStr → CStr
  | c0 :: c1 :: rest => if c0 = '.' ∧ c1 = '/' then skipDotSlash rest else c0 :: c1 :: rest
  | p => p

/-- The test `!subdir[0] || (subdir[0] == '.' && (!subdir[1] || subdir[1] == '/'))`
that opens `DirBase::getDir`. -/
def isSelfPath : CStr → Bool
  | [] => true
  | c0 :: rest =>
    decide (c0 = '.') &&
      (match rest with
       | [] => true
       | c1 :: _ => decide (c1 = '/'))

/-- The components of a path: the pieces between its slashes. -/
def components : CStr → List CStr
  | [] => [[]]
  | c :: cs =>
    if c = '/' then [] :: components cs
    else
      match components cs with
      | [] => [[c]]
      | x :: xs => (c :: x) :: xs

/-- A normalized path: slash-separated, no `.` or `..` component, and no empty
component other than a possible leading one. -/
def normalizedPath (p : CStr) : Bool :=
  (components p).all (fun c => decide (c ≠ ['.']) && decide (c ≠ ['.', '.'])) &&
  (components p).tail.all (fun c => decide (c ≠ []))

/-- Byte-wise order of two C strings, as `strcmp(a, b) < 0`. -/
def strLess : CStr → CStr → Bool
  | [], [] => false
  | [], _ :: _ => true
  | _ :: _, [] => false
  | a :: as, b :: bs =>
    if a.toNat < b.toNat then true
    else if b.toNat < a.toNat then false
    else strLess as bs

/-- Model of `strcmp`: negative, zero or positive. -/
def strcmp : CStr → CStr → Int
  | [], [] => 0
  | [], _ :: _ => -1
  | _ :: _, [] => 1
  | a :: as, b :: bs =>
    if a.toNat < b.toNat then -1
    else if b.toNat < a.toNat then 1
    else strcmp as bs

/-! ## Maps keyed by name (`Dirs`, `Files`) -/

/-- The call `m.find(k)` on a name-keyed map; `none` stands for `m.end()`. -/
def mapFind (m : List (CStr × Nat)) (k : CStr) : Option Nat :=
  match m with
  | [] => none
  | (k0, v0) :: rest => if k = k0 then some v0 else mapFind rest k

/-- The assignment `m[k] = v` on a name-keyed map: the entry of `k` is overwritten when
present and inserted at its place in key order otherwise. -/
def mapAssign (m : List (CStr × Nat)) (k : CStr) (v : Nat) : List (CStr × Nat) :=
  match m with
  | [] => [(k, v)]
  | (k0, v0) :: rest =>
    if k = k0 then (k, v) :: rest
    else if strLess k k0 then (k, v) :: (k0, v0) :: rest
    else (k0, v0) :: mapAssign rest k v

/-- The call `m.erase(it)` for the iterator found under key `k`. -/
def mapErase (m : List (CStr × Nat)) (k : CStr) : List (CStr × Nat) :=
  match m with
  | [] => []
  | (k0, v0) :: rest => if k = k0 then rest else (k0, v0) :: mapErase rest k

/-! ## Objects and the heap -/

/-- A `File` object: its full path and its name. -/
structure FileObj where
  fullname : CStr
  name : CStr
deriving DecidableEq, Repr

/-- A directory object (`DirBase` with the `_files` map of `Dir`): full path, name,
the child-directory map and the child-file map, both holding pointers. -/
structure DirObj where
  fullname : CStr
  name : CStr
  _subdirs : List (CStr × Nat)
  _files : List (CStr × Nat)
deriving DecidableEq, Repr

/-- The object heap: a pointer is an index into `dirs` (directories) or `files`. -/
structure Heap where
  dirs : List DirObj
  files : List FileObj
deriving DecidableEq, Repr

/-- Every pointer stored in a child-directory map points to a directory of the heap. -/
def Heap.wf (h : Heap) : Bool :=
  h.dirs.all (fun n => n._subdirs.all (fun kv => decide (kv.2 < h.dirs.length)))

/-- Modelled from the spec: `VFSBase::_setName` (called by the `DirBase` constructor) is
not among the sources; the spec gives `name` as the path component identifying the node
within its parent, so the name is the text after the last slash of the full path. -/
def baseName : CStr → CStr
  | [] => []
  | c :: cs =>
    if '/' ∈ cs then baseName cs
    else if c = '/' then cs
    else c :: cs

/-- The constructor `DirBase(fullpath)` (through `createNew`): a directory with the given
full path, the name derived from it, and empty maps. -/
def DirObj.create (fullpath : CStr) : DirObj :=
  { fullname := fullpath, name := baseName fullpath, _subdirs := [], _files := [] }

/-- The call `createNew(dir)`: allocates a fresh directory object; returns the new heap and
the pointer. `DiskDir::createNew` is `new DiskDir(dir)`. -/
def Heap.createNew (h : Heap) (dir : CStr) : Heap × Nat :=
  ({ h with dirs := h.dirs ++ [DirObj.create dir] }, h.dirs.length)

/-- Overwrites the directory object at address `d`. -/
def Heap.putDir (h : Heap) (d : Nat) (n : DirObj) : Heap :=
  { h with dirs := h.dirs.set d n }

/-- The statement `_subdirs[ins->name()] = ins;` executed by the directory `self`. -/
def Heap.linkSubdir (h : Heap) (self ins : Nat) : Heap :=
  match h.dirs[self]?, h.dirs[ins]? with
  | some me, some child =>
    h.putDir self { me with _subdirs := mapAssign me._subdirs child.name ins }
  | _, _ => h

/-- The call `d->fullname()`; the empty string when `d` is not a live object. -/
def Heap.fullname (h : Heap) (d : Nat) : CStr :=
  match h.dirs[d]? with
  | some me => me.fullname
  | none => []

/-- The child directory stored under key `k` in the `_subdirs` map of `d`. -/
def Heap.subdir (h : Heap) (d : Nat) (k : CStr) : Option Nat :=
  match h.dirs[d]? with
  | some me => mapFind me._subdirs k
  | none => none

/-! ## `VFSDir.cpp` -/

/-- The function `Dir::getFileByName`: a lookup in the `_files` map. -/
def Dir.getFileByName (h : Heap) (self : Nat) (fn : CStr) : Option Nat :=
  match h.dirs[self]? with
  | some me => mapFind me._files fn
  | none => none

/-- The `do ... while(subdir)` loop of `DirBase::getFile`, entered at `pos_known`: `comp` is
the component between `ptr` and `slashpos`, `rest` the text after `slashpos`. The first
argument bounds the number of iterations. -/
def DirBase.getFileLoop : Nat → Heap → Nat → CStr → CStr → Option Nat
  | 0, _, _, _, _ => none
  | fuel + 1, h, subdir, comp, rest =>
    match h.subdir subdir comp with
    | none => none
    | some next =>
      match strchrSlash (skipDotSlash rest) with
      | none => Dir.getFileByName h next (skipDotSlash rest)
      | some (comp1, rest1) => DirBase.getFileLoop fuel h next comp1 rest1

/-- The function `DirBase::getFile`. It only reads the tree; the heap is returned as it was
received. -/
def DirBase.getFile (h : Heap) (self : Nat) (fn : CStr) : Heap × Option Nat :=
  match strchrSlash (skipDotSlash fn) with
  | some (comp, rest) => (h, DirBase.getFileLoop (rest.length + 1) h self comp rest)
  | none => (h, Dir.getFileByName h self (skipDotSlash fn))

/-- The body of `DirBase::getDir`; the first argument bounds the recursion depth. -/
def DirBase.getDirFuel : Nat → Heap → Nat → CStr → Bool → Heap × Option Nat
  | 0, h, _, _, _ => (h, none)
  | fuel + 1, h, self, subdir, forceCreate =>
    if isSelfPath subdir then (h, some self)
    else
      match h.dirs[self]? with
      | none => (h, none)
      | some me =>
        match strchrSlash subdir with
        | some (t, sub) =>
          match mapFind me._subdirs t with
          | some child => DirBase.getDirFuel fuel h child sub forceCreate
          | none =>
            if forceCreate then
              DirBase.getDirFuel fuel
                (((h.createNew (if me.fullname.length ≠ 0 then me.fullname ++ '/' :: t else t)).1).linkSubdir
                  self h.dirs.length)
                h.dirs.length sub true
            else (h, none)
        | none =>
          match mapFind me._subdirs subdir with
          | some child => (h, some child)
          | none =>
            if forceCreate then
              (((h.createNew
                    (if me.fullname.length ≠ 0 then me.fullname ++ '/' :: subdir else subdir)).1).linkSubdir
                  self h.dirs.length,
                some h.dirs.length)
            else (h, none)

/-- The function `DirBase::getDir`: every recursive call is made on the text after the first
slash, so a depth of the path length plus one is never exhausted. -/
def DirBase.getDir (h : Heap) (self : Nat) (subdir : CStr) (forceCreate : Bool) : Heap × Option Nat :=
  DirBase.getDirFuel (subdir.length + 1) h self subdir forceCreate

/-- The function `Dir::add`. -/
def Dir.add (h : Heap) (self : Nat) (f : Option Nat) : Heap × Bool :=
  match f with
  | none => (h, false)
  | some fp =>
    match h.dirs[self]?, h.files[fp]? with
    | some me, some fo =>
      match mapFind me._files fo.name with
      | some oldf =>
        if oldf = fp then (h, false)
        else
          (h.putDir self { me with _files := mapAssign (mapErase me._files fo.name) fo.name fp }, true)
      | none =>
        (h.putDir self { me with _files := mapAssign me._files fo.name fp }, true)
    | _, _ => (h, false)

/-- The function `Dir::addRecursive`. The length difference is computed in `size_t`
(64 bits); `dirname` is the full name cut one byte before the name. -/
def Dir.addRecursive (h : Heap) (self : Nat) (f : Option Nat) : Heap × Bool :=
  match f with
  | none => (h, false)
  | some fp =>
    match h.files[fp]? with
    | none => (h, false)
    | some fo =>
      if (fo.fullname.length + 2 ^ 64 - fo.name.length) % 2 ^ 64 ≠ 0 then
        match DirBase.getDir h self
            (fo.fullname.take ((fo.fullname.length + 2 ^ 64 - fo.name.length) % 2 ^ 64 - 1)) true with
        | (h1, some vdir) => Dir.add h1 vdir (some fp)
        | (h1, none) => (h1, false)
      else Dir.add h self (some fp)

/-! ## `VFSHelper.cpp` -/

/-- What a function that may reach `assert(false)` does: it returns, or the assertion stops
the program. -/
inductive Outcome (α : Type) where
  | ret : α → Outcome α
  | assertFail : Outcome α

/-- The collaborators of `VFSHelper.cpp` that are declared in headers outside the sources,
taken as parameters: the path normalizer `FixPath`, `StripLastPath`, the comparison behind
the `casecmp` macro (it returns 0 on a match), and whether `assert` is compiled out. -/
structure Tools where
  FixPath : CStr → CStr
  StripLastPath : CStr → CStr
  casecmp : CStr → CStr → Int
  NDEBUG : Bool

/-- A `VFSLoader`: `Load(fn, unmangled)` gives a newly constructed file or nothing,
`LoadDir(fn, unmangled)` a newly constructed directory or nothing. -/
structure VFSLoader where
  Load : CStr → CStr → Option FileObj
  LoadDir : CStr → CStr → Option DirObj

/-- A mount list entry: the backing directory and the mount point. -/
structure VDirEntry where
  vdir : Nat
  mountPoint : CStr
deriving DecidableEq, Repr

/-- One call made to a loader: the position of the loader in `loaders` and the arguments. -/
inductive LoaderCall where
  | load (idx : Nat) (fn unmangled : CStr)
  | loadDir (idx : Nat) (fn unmangled : CStr)
deriving DecidableEq, Repr

/-- The state of a `VFSHelper`: the heap, the `merged` root, the mount list `vlist`, the
generic loaders (a registered pointer may be null), and the record of the loader calls made
so far (kept to state which loaders a lookup consulted). -/
structure VFSHelper where
  heap : Heap
  merged : Option Nat
  vlist : List VDirEntry
  loaders : List (Option VFSLoader)
  calls : List LoaderCall

/-- The constructor `VFSHelper()`: `merged` is a new directory made from the path `/`. -/
def VFSHelper.init : VFSHelper :=
  { heap := { dirs := [DirObj.create ['/']], files := [] }, merged := some 0, vlist := [],
    loaders := [], calls := [] }

/-- The function `VFSHelper::AddLoader`. -/
def VFSHelper.AddLoader (s : VFSHelper) (ldr : Option VFSLoader) : VFSHelper :=
  { s with loaders := s.loaders ++ [ldr] }

/-- The condition under which `_StoreMountPoint` and `_RemoveMountPoint` treat the list entry
`oe` as the entry `ve`:
`ve.mountPoint == oe.mountPoint && (ve.vdir == oe.vdir || !casecmp(ve.vdir->fullname(), oe.vdir->fullname()))`. -/
def VDirEntry.same (T : Tools) (h : Heap) (ve oe : VDirEntry) : Bool :=
  decide (ve.mountPoint = oe.mountPoint) &&
    (decide (ve.vdir = oe.vdir) || decide (T.casecmp (h.fullname ve.vdir) (h.fullname oe.vdir) = 0))

/-- The scan of `_StoreMountPoint` over the mount list: matching entries are erased, the
iteration goes on to the end. -/
def VFSHelper.storeLoop (T : Tools) (h : Heap) (ve : VDirEntry) : List VDirEntry → List VDirEntry
  | [] => []
  | oe :: rest =>
    if VDirEntry.same T h ve oe then VFSHelper.storeLoop T h ve rest
    else oe :: VFSHelper.storeLoop T h ve rest

/-- The function `VFSHelper::_StoreMountPoint`. -/
def VFSHelper._StoreMountPoint (T : Tools) (s : VFSHelper) (ve : VDirEntry) : VFSHelper :=
  { s with vlist := VFSHelper.storeLoop T s.heap ve s.vlist ++ [ve] }

/-- The scan of `_RemoveMountPoint`: the first matching entry is erased and the function
returns true at once; the end of the list gives false. -/
def VFSHelper.removeLoop (T : Tools) (h : Heap) (ve : VDirEntry) :
    List VDirEntry → List VDirEntry × Bool
  | [] => ([], false)
  | oe :: rest =>
    if VDirEntry.same T h ve oe then (rest, true)
    else (oe :: (VFSHelper.removeLoop T h ve rest).1, (VFSHelper.removeLoop T h ve rest).2)

/-- The function `VFSHelper::_RemoveMountPoint`. -/
def VFSHelper._RemoveMountPoint (T : Tools) (s : VFSHelper) (ve : VDirEntry) : VFSHelper × Bool :=
  ({ s with vlist := (VFSHelper.removeLoop T s.heap ve s.vlist).1 },
    (VFSHelper.removeLoop T s.heap ve s.vlist).2)

/-- The function `VFSHelper_GetFileByLoader`; `idx` is the position of `ldr` in the loader
list and `root` the value of `GetDirRoot()`. A returned file is allocated on the heap and
spliced into the tree by `root->addRecursive(vf)`. -/
def VFSHelper_GetFileByLoader (ldr : Option VFSLoader) (idx : Nat) (fn unmangled : CStr)
    (root : Option Nat) (s : VFSHelper) : VFSHelper × Option Nat :=
  match ldr with
  | none => (s, none)
  | some l =>
    match l.Load fn unmangled with
    | none => ({ s with calls := s.calls ++ [LoaderCall.load idx fn unmangled] }, none)
    | some fo =>
      ({ s with
          heap :=
            (match root with
             | some r =>
               (Dir.addRecursive { s.heap with files := s.heap.files ++ [fo] } r
                 (some s.heap.files.length)).1
             | none => { s.heap with files := s.heap.files ++ [fo] }),
          calls := s.calls ++ [LoaderCall.load idx fn unmangled] },
        some s.heap.files.length)

/-- The loop of `VFSHelper::GetFile` over `loaders`, from position `idx` on: it stops at the
first loader that gives a file. -/
def VFSHelper.fileLoaderLoop (fn unmangled : CStr) :
    List (Option VFSLoader) → Nat → VFSHelper → VFSHelper × Option Nat
  | [], _, s => (s, none)
  | ldr :: rest, idx, s =>
    match VFSHelper_GetFileByLoader ldr idx fn unmangled s.merged s with
    | (s1, some vf) => (s1, some vf)
    | (s1, none) => VFSHelper.fileLoaderLoop fn unmangled rest (idx + 1) s1

/-- The function `VFSHelper::GetFile`. -/
def VFSHelper.GetFile (T : Tools) (s : VFSHelper) (fn : CStr) : VFSHelper × Option Nat :=
  match s.merged with
  | none => (s, none)
  | some m =>
    match DirBase.getFile s.heap m (T.FixPath fn) with
    | (h1, some vf) => ({ s with heap := h1 }, some vf)
    | (h1, none) => VFSHelper.fileLoaderLoop (T.FixPath fn) fn s.loaders 0 { s with heap := h1 }

/-- The function `VFSHelper_GetDirByLoader`: a directory given by the loader is allocated,
its parent is resolved with creation, and the function then reaches `assert(false)`. -/
def VFSHelper_GetDirByLoader (T : Tools) (ldr : Option VFSLoader) (idx : Nat) (fn unmangled : CStr)
    (root : Option Nat) (s : VFSHelper) : Outcome (VFSHelper × Option Nat) :=
  match ldr with
  | none => Outcome.ret (s, none)
  | some l =>
    match l.LoadDir fn unmangled with
    | none => Outcome.ret ({ s with calls := s.calls ++ [LoaderCall.loadDir idx fn unmangled] }, none)
    | some dobj =>
      if T.NDEBUG then
        Outcome.ret
          ({ s with
              heap :=
                (if T.StripLastPath fn = [] then { s.heap with dirs := s.heap.dirs ++ [dobj] }
                 else
                   match root with
                   | some r =>
                     (DirBase.getDir { s.heap with dirs := s.heap.dirs ++ [dobj] } r
                       (T.StripLastPath fn) true).1
                   | none => { s.heap with dirs := s.heap.dirs ++ [dobj] }),
              calls := s.calls ++ [LoaderCall.loadDir idx fn unmangled] },
            some s.heap.dirs.length)
      else Outcome.assertFail

/-- The loop of `VFSHelper::GetDir` over `loaders`, from position `idx` on. -/
def VFSHelper.dirLoaderLoop (T : Tools) (fn unmangled : CStr) :
    List (Option VFSLoader) → Nat → VFSHelper → Outcome (VFSHelper × Option Nat)
  | [], _, s => Outcome.ret (s, none)
  | ldr :: rest, idx, s =>
    match VFSHelper_GetDirByLoader T ldr idx fn unmangled s.merged s with
    | Outcome.assertFail => Outcome.assertFail
    | Outcome.ret (s1, some vd) => Outcome.ret (s1, some vd)
    | Outcome.ret (s1, none) => VFSHelper.dirLoaderLoop T fn unmangled rest (idx + 1) s1

/-- The function `VFSHelper::GetDir`. -/
def VFSHelper.GetDir (T : Tools) (s : VFSHelper) (dn : CStr) (create : Bool) :
    Outcome (VFSHelper × Option Nat) :=
  match s.merged with
  | none => Outcome.ret (s, none)
  | some m =>
    if T.FixPath dn = [] then Outcome.ret (s, some m)
    else
      match DirBase.getDir s.heap m (T.FixPath dn) false with
      | (h1, some vd) => Outcome.ret ({ s with heap := h1 }, some vd)
      | (h1, none) =>
        if create then
          match VFSHelper.dirLoaderLoop T (T.FixPath dn) dn s.loaders 0 { s with heap := h1 } with
          | Outcome.assertFail => Outcome.assertFail
          | Outcome.ret (s2, some vd) => Outcome.ret (s2, some vd)
          | Outcome.ret (s2, none) =>
            Outcome.ret
              ({ s2 with heap := (DirBase.getDir s2.heap m (T.FixPath dn) true).1 },
                (DirBase.getDir s2.heap m (T.FixPath dn) true).2)
        else Outcome.ret ({ s with heap := h1 }, none)

/-- The function `VFSHelper::AddVFSDir`: a null `subdir` stands for the full name of `dir`.
The merge into the mount point is commented out in the source; what is left is the mount
list update, the creation of the mount point and `assert(false)`. -/
def VFSHelper.AddVFSDir (T : Tools) (s : VFSHelper) (dir : Option Nat) (subdir : Option CStr) :
    Outcome (VFSHelper × Bool) :=
  match dir with
  | none => Outcome.ret (s, false)
  | some d =>
    match VFSHelper.GetDir T
        (VFSHelper._StoreMountPoint T s ⟨d, subdir.getD (s.heap.fullname d)⟩)
        (subdir.getD (s.heap.fullname d)) true with
    | Outcome.assertFail => Outcome.assertFail
    | Outcome.ret (s2, none) => Outcome.ret (s2, false)
    | Outcome.ret (s2, some _) => if T.NDEBUG then Outcome.ret (s2, true) else Outcome.assertFail

/-- The function `VFSHelper::Mount`. -/
def VFSHelper.Mount (T : Tools) (s : VFSHelper) (src dest : CStr) : Outcome (VFSHelper × Bool) :=
  match VFSHelper.GetDir T s src false with
  | Outcome.assertFail => Outcome.assertFail
  | Outcome.ret (s1, d) => VFSHelper.AddVFSDir T s1 d (some dest)

/-- The function `VFSHelper::MountExternalPath`: the backing directory is a new `DiskDir`. -/
def VFSHelper.MountExternalPath (T : Tools) (s : VFSHelper) (path where_ : CStr) :
    Outcome (VFSHelper × Bool) :=
  VFSHelper.AddVFSDir T { s with heap := (s.heap.createNew path).1 } (some s.heap.dirs.length)
    (some where_)

/-- The function `VFSHelper::Unmount`. -/
def VFSHelper.Unmount (T : Tools) (s : VFSHelper) (src dest : CStr) : Outcome (VFSHelper × Bool) :=
  match VFSHelper.GetDir T s src false with
  | Outcome.assertFail => Outcome.assertFail
  | Outcome.ret (s1, none) => Outcome.ret (s1, false)
  | Outcome.ret (s1, some vd) =>
    if (VFSHelper._RemoveMountPoint T s1 ⟨vd, dest⟩).2 then
      if T.NDEBUG then Outcome.ret ((VFSHelper._RemoveMountPoint T s1 ⟨vd, dest⟩).1, true)
      else Outcome.assertFail
    else Outcome.ret ((VFSHelper._RemoveMountPoint T s1 ⟨vd, dest⟩).1, false)

/-- The value returned, when the function returned. -/
def Outcome.val? {α : Type} : Outcome α → Option α
  | Outcome.ret a => some a
  | Outcome.assertFail => none

/-! ## Notions used to state the properties -/

/-- Equivalence of two mount entries: equal mount point strings, and backing directories
that are the same object or have equal full names. -/
def mountEquivalent (h : Heap) (ve oe : VDirEntry) : Bool :=
  decide (ve.mountPoint = oe.mountPoint) &&
    (decide (ve.vdir = oe.vdir) || decide (h.fullname ve.vdir = h.fullname oe.vdir))

/-- The case-sensitive build: no path rewriting, `casecmp` is `strcmp`, `assert` compiled
out. -/
def releaseTools : Tools :=
  { FixPath := id, StripLastPath := id, casecmp := strcmp, NDEBUG := true }

/-- The heap `h1` extends `h`: the file store is the same, every directory of `h` is still
there with the same full name, name and child-file map, and every entry of its
child-directory map is still there. -/
def Heap.extendedBy (h h1 : Heap) : Prop :=
  h1.files = h.files ∧ h.dirs.length ≤ h1.dirs.length ∧
  ∀ (q : Nat) (me : DirObj), h.dirs[q]? = some me →
    ∃ me1, h1.dirs[q]? = some me1 ∧ me1.fullname = me.fullname ∧ me1.name = me.name ∧
      me1._files = me._files ∧
      ∀ k c, mapFind me._subdirs k = some c → mapFind me1._subdirs k = some c

/-- A loader that gives no file for the request: a null pointer, or one whose `Load` returns
null. -/
def loaderMisses (fn unmangled : CStr) (x : Option VFSLoader) : Prop :=
  x = none ∨ ∃ l, x = some l ∧ l.Load fn unmangled = none

/-! ## Concrete trees and states -/

/-- A small tree: the root (full name empty) holds the directory `a`, which holds `b`. -/
def smallTree : Heap :=
  { dirs :=
      [ { fullname := [], name := [], _subdirs := [("a".toList, 1)], _files := [] },
        { fullname := "a".toList, name := "a".toList, _subdirs := [("b".toList, 2)], _files := [] },
        { fullname := "a/b".toList, name := "b".toList, _subdirs := [], _files := [] } ],
    files := [] }

/-- A tree whose root holds the directory named with the empty string, which holds the file
`x.txt` (file object 0) and the directory `home`. -/
def absTree : Heap :=
  { dirs :=
      [ { fullname := [], name := [], _subdirs := [([], 1)], _files := [] },
        { fullname := [], name := [], _subdirs := [("home".toList, 2)],
          _files := [("x.txt".toList, 0)] },
        { fullname := "/home".toList, name := "home".toList, _subdirs := [], _files := [] } ],
    files := [⟨"/x.txt".toList, "x.txt".toList⟩] }

/-- An empty root directory next to a file object with full name `/x.txt` and name `x.txt`
that is not yet in the tree. -/
def spliceTree : Heap :=
  { dirs := [DirObj.create []],
    files := [⟨"/x.txt".toList, "x.txt".toList⟩] }

/-- A fresh `VFSHelper` next to a backing directory `/data` (object 1) that holds `a.txt`
and the directory `sub` (object 2) with `b.txt`. -/
def mountState : VFSHelper :=
  { VFSHelper.init with
    heap :=
      { dirs :=
          [ DirObj.create ['/'],
            { fullname := "/data".toList, name := "data".toList,
              _subdirs := [("sub".toList, 2)], _files := [("a.txt".toList, 0)] },
            { fullname := "/data/sub".toList, name := "sub".toList,
              _subdirs := [], _files := [("b.txt".toList, 1)] } ],
        files :=
          [ ⟨"/data/a.txt".toList, "a.txt".toList⟩,
            ⟨"/data/sub/b.txt".toList, "b.txt".toList⟩ ] } }

/-- The state after `AddVFSDir(backing, "assets")` on `mountState` in the release build. -/
def mountedState : VFSHelper :=
  match VFSHelper.AddVFSDir releaseTools mountState (some 1) (some "assets".toList) with
  | Outcome.ret (s, _) => s
  | Outcome.assertFail => mountState

/-- A state with two mount list entries. -/
def tableState : VFSHelper :=
  { mountState with vlist := [⟨1, "assets".toList⟩, ⟨2, "other".toList⟩] }

/-- A loader that never gives anything. -/
def emptyLoader : VFSLoader :=
  { Load := fun _ _ => none, LoadDir := fun _ _ => none }

/-- A loader that gives a file for every path: full name and name are the path. -/
def echoLoader : VFSLoader :=
  { Load := fun fn _ => some ⟨fn, fn⟩, LoadDir := fun _ _ => none }

/-- A fresh `VFSHelper` with a null loader, an empty loader and an echo loader registered. -/
def loaderState : VFSHelper :=
  { VFSHelper.init with loaders := [none, some emptyLoader, some echoLoader, some echoLoader] }

/-! ## Step-bounded resolution -/

/-- The body of `DirBase::getDir` once more, with the depth bound made visible: `none` is
returned when (and only when) the bound is used up before the recursion ends. -/
def DirBase.getDirBounded : Nat → Heap → Nat → CStr → Bool → Option (Heap × Option Nat)
  | 0, _, _, _, _ => none
  | fuel + 1, h, self, subdir, forceCreate =>
    if isSelfPath subdir then some (h, some self)
    else
      match h.dirs[self]? with
      | none => some (h, none)
      | some me =>
        match strchrSlash subdir with
        | some (t, sub) =>
          match mapFind me._subdirs t with
          | some child => DirBase.getDirBounded fuel h child sub forceCreate
          | none =>
            if forceCreate then
              DirBase.getDirBounded fuel
                (((h.createNew (if me.fullname.length ≠ 0 then me.fullname ++ '/' :: t else t)).1).linkSubdir
                  self h.dirs.length)
                h.dirs.length sub true
            else some (h, none)
        | none =>
          match mapFind me._subdirs subdir with
          | some child => some (h, some child)
          | none =>
            if forceCreate then
              some (((h.createNew
                    (if me.fullname.length ≠ 0 then me.fullname ++ '/' :: subdir else subdir)).1).linkSubdir
                  self h.dirs.length,
                some h.dirs.length)
            else some (h, none)

/-- The loop of `DirBase::getFile` once more, with the iteration bound made visible: the
outer `none` is returned when (and only when) the bound is used up before the loop ends. -/
def DirBase.getFileLoopBounded : Nat → Heap → Nat → CStr → CStr → Option (Option Nat)
  | 0, _, _, _, _ => none
  | fuel + 1, h, subdir, comp, rest =>
    match h.subdir subdir comp with
    | none => some none
    | some next =>
      match strchrSlash (skipDotSlash rest) with
      | none => some (Dir.getFileByName h next (skipDotSlash rest))
      | some (comp1, rest1) => DirBase.getFileLoopBounded fuel h next comp1 rest1

/-! ## `DiskDir::load` and the enumerations -/

/-- The directory enumerator behind `GetFileList` and `GetDirList` (declared in `VFSTools.h`,
outside the sources), taken as a parameter: the names of the files and of the directories
found under a path at the time of the call. -/
structure Disk where
  GetFileList : CStr → List CStr
  GetDirList : CStr → List CStr

/-- Modelled from the spec: the constructor `DiskFile(fullpath)` is not among the sources; as
for directories, the full path is kept and the name is the text after its last slash. -/
def FileObj.create (fullpath : CStr) : FileObj :=
  { fullname := fullpath, name := baseName fullpath }

/-- The statement `_files[f->name()] = f;` executed by the directory `self`. -/
def Heap.linkFile (h : Heap) (self fp : Nat) : Heap :=
  match h.dirs[self]?, h.files[fp]? with
  | some me, some fo => h.putDir self { me with _files := mapAssign me._files fo.name fp }
  | _, _ => h

/-- The first loop of `DiskDir::load`: for every listed name a `DiskFile` with the path
`fullname() + '/' + name` is allocated and stored under its name. -/
def DiskDir.loadFiles (self : Nat) : List CStr → Heap → Heap
  | [], h => h
  | it :: rest, h =>
    DiskDir.loadFiles self rest
      (Heap.linkFile { h with files := h.files ++ [FileObj.create (h.fullname self ++ '/' :: it)] }
        self h.files.length)

/-- The second loop of `DiskDir::load`: for every listed name a directory with the path
`fullname() + '/' + name` is made by `createNew` and stored under its name. -/
def DiskDir.loadDirs (self : Nat) : List CStr → Heap → Heap
  | [], h => h
  | it :: rest, h =>
    DiskDir.loadDirs self rest
      (((h.createNew (h.fullname self ++ '/' :: it)).1).linkSubdir self h.dirs.length)

/-- The function `DiskDir::load`: both maps are cleared, then filled from the enumerator. -/
def DiskDir.load (E : Disk) (h : Heap) (self : Nat) : Heap :=
  match h.dirs[self]? with
  | none => h
  | some me =>
    DiskDir.loadDirs self (E.GetDirList me.fullname)
      (DiskDir.loadFiles self (E.GetFileList me.fullname)
        (h.putDir self { me with _files := [], _subdirs := [] }))

/-- What an enumeration leaves behind: the heap, the user data, and the pointers the callback
was invoked with, in order (kept to state the sequence of invocations). -/
structure EnumResult (U : Type) where
  heap : Heap
  user : U
  calls : List Nat

/-- One invocation `f(ptr, user)` of an enumeration callback; the callback may change the heap
and the user data. -/
def EnumResult.invoke {U : Type} (f : Heap → Nat → U → Heap × U) (r : EnumResult U) (ptr : Nat) :
    EnumResult U :=
  { heap := (f r.heap ptr r.user).1, user := (f r.heap ptr r.user).2, calls := r.calls ++ [ptr] }

/-- The loop of `_iterDirs` and `_iterFiles` over a map that the callback cannot reach (the
copy `cp` of the safe mode): every entry is visited, in the order of the map. -/
def iterCopy {U : Type} (f : Heap → Nat → U → Heap × U) : List (CStr × Nat) → EnumResult U → EnumResult U
  | [], r => r
  | (_, ptr) :: rest, r => iterCopy f rest (r.invoke f ptr)

/-- Where a map iterator stands after `m.begin()` (no current key) or after `++it` from the
entry with key `cur`: at the entry with the next greater key of the map as it is now. -/
def mapNext (m : List (CStr × Nat)) (cur : Option CStr) : Option (CStr × Nat) :=
  match cur with
  | none => m.head?
  | some k => m.find? (fun kv => strLess k kv.1)

/-- The loop of `_iterDirs` and `_iterFiles` over the live map of the unsafe mode: `live`
reads the map from the current heap, so the loop sees what the callback does to it. The
first argument bounds the number of iterations; `none` means that the loop has not ended
within the bound (a callback that keeps inserting greater keys keeps it running). Erasing
the entry the iterator stands on is undefined in C++; here the loop goes on behind its key. -/
def iterLive {U : Type} (live : Heap → List (CStr × Nat)) (f : Heap → Nat → U → Heap × U) :
    Nat → Option CStr → EnumResult U → Option (EnumResult U)
  | 0, _, _ => none
  | fuel + 1, cur, r =>
    match mapNext (live r.heap) cur with
    | none => some r
    | some (k, ptr) => iterLive live f fuel (some k) (r.invoke f ptr)

/-- The `_subdirs` map of the directory `self`; empty when `self` is not a live object. -/
def Heap.subdirsOf (h : Heap) (self : Nat) : List (CStr × Nat) :=
  match h.dirs[self]? with
  | some me => me._subdirs
  | none => []

/-- The `_files` map of the directory `self`; empty when `self` is not a live object. -/
def Heap.filesOf (h : Heap) (self : Nat) : List (CStr × Nat) :=
  match h.dirs[self]? with
  | some me => me._files
  | none => []

/-- The function `DirBase::forEachDir`. In safe mode the loop runs over a copy of `_subdirs`,
otherwise over the live map, with `fuel` as the bound of `iterLive`. -/
def DirBase.forEachDir {U : Type} (h : Heap) (self : Nat) (f : Heap → Nat → U → Heap × U) (user : U)
    (safe : Bool) (fuel : Nat) : Option (EnumResult U) :=
  if safe then some (iterCopy f (h.subdirsOf self) { heap := h, user := user, calls := [] })
  else iterLive (fun hp => hp.subdirsOf self) f fuel none { heap := h, user := user, calls := [] }

/-- The function `Dir::forEachFile` on a `DiskDir`: `load()` runs first, then the loop over a
copy of `_files` (safe mode) or over the live map. -/
def Dir.forEachFile {U : Type} (E : Disk) (h : Heap) (self : Nat) (f : Heap → Nat → U → Heap × U)
    (user : U) (safe : Bool) (fuel : Nat) : Option (EnumResult U) :=
  if safe then
    some (iterCopy f ((DiskDir.load E h self).filesOf self)
      { heap := DiskDir.load E h self, user := user, calls := [] })
  else
    iterLive (fun hp => hp.filesOf self) f fuel none
      { heap := DiskDir.load E h self, user := user, calls := [] }

/-- The keys of a name-keyed map are in strictly ascending byte order. -/
def mapSorted (m : List (CStr × Nat)) : Prop :=
  m.Pairwise (fun a b => strLess a.1 b.1 = true)

/-! ## `VFSHelper::AddArchive` -/

/-- What one call `Load(arch, &fileLdr, ctx)` of an archive loader does: the directory it
returns (none for a null pointer) and the value it stores through the loader pointer it is
handed, if it stores one. -/
structure ArchiveResult where
  dir : Option DirObj
  ldrWrite : Option (Option VFSLoader)

/-- A `VFSArchiveLoader`: its `Load` as a function of the archive file and of the context
pointer given as third argument. -/
structure VFSArchiveLoader where
  Load : FileObj → Option Nat → ArchiveResult

/-- The loop of `VFSHelper::AddArchive` over `archLdrs`: every loader is handed the address of
the one variable `fileLdr`; the loop stops at the first loader that returns a directory.
The result is that directory (if any), the final value of `fileLdr`, and the number of
loaders that were called. -/
def VFSHelper.archiveLoaderLoop (af : FileObj) (ctx : Option Nat) :
    List VFSArchiveLoader → Option VFSLoader → Nat → Option DirObj × Option VFSLoader × Nat
  | [], fileLdr, n => (none, fileLdr, n)
  | l :: rest, fileLdr, n =>
    match (l.Load af ctx).dir with
    | some ad => (some ad, ((l.Load af ctx).ldrWrite).getD fileLdr, n + 1)
    | none =>
      VFSHelper.archiveLoaderLoop af ctx rest (((l.Load af ctx).ldrWrite).getD fileLdr) (n + 1)

/-- The function `VFSHelper::AddArchive`; `archLdrs` is the list of registered archive
loaders (the function only reads it). The directory given by a loader is allocated on the
heap; the value of `AddVFSDir` is dropped, as in the source. -/
def VFSHelper.AddArchive (T : Tools) (archLdrs : List VFSArchiveLoader) (s : VFSHelper)
    (arch : CStr) (ctx : Option Nat) : Outcome (VFSHelper × Option Nat) :=
  match VFSHelper.GetFile T s arch with
  | (s1, none) => Outcome.ret (s1, none)
  | (s1, some af) =>
    match s1.heap.files[af]? with
    | none => Outcome.ret (s1, none)
    | some afo =>
      match VFSHelper.archiveLoaderLoop afo ctx archLdrs none 0 with
      | (none, _, _) => Outcome.ret (s1, none)
      | (some ad, fileLdr, _) =>
        match VFSHelper.AddVFSDir T
            { s1 with
              heap := { s1.heap with dirs := s1.heap.dirs ++ [ad] },
              loaders :=
                (match fileLdr with
                 | some l => s1.loaders ++ [some l]
                 | none => s1.loaders) }
            (some s1.heap.dirs.length) (some arch) with
        | Outcome.assertFail => Outcome.assertFail
        | Outcome.ret (s3, _) => Outcome.ret (s3, some s1.heap.dirs.length)

/-! ## Further notions used to state the properties -/

/-- The directory at address `a` of the heap `h1` is as a directory created on demand for the
path `p` is to be: some directory `q` holds it under a key `c` that is a component of `p`,
its name is `c`, and its full path is the full path of `q`, a slash and `c`, or just `c`
when the full path of `q` is empty. -/
def createdUnder (h1 : Heap) (p : CStr) (a : Nat) : Prop :=
  ∃ (q : Nat) (c : CStr) (qobj aobj : DirObj), '/' ∉ c ∧ c ∈ components p ∧
    h1.dirs[q]? = some qobj ∧ h1.dirs[a]? = some aobj ∧
    mapFind qobj._subdirs c = some a ∧ aobj.name = c ∧
    aobj.fullname = (if qobj.fullname.length ≠ 0 then qobj.fullname ++ '/' :: c else c)

/-! ## Further concrete trees and states -/

/-- A disk directory with the full name `d` (object 0) that has not been loaded yet. -/
def diskTree : Heap :=
  { dirs := [DirObj.create "d".toList], files := [] }

/-- The disk behind `diskTree`: every path lists the file `a.txt` and no directory. -/
def oneFileDisk : Disk :=
  { GetFileList := fun _ => ["a.txt".toList], GetDirList := fun _ => [] }

/-- A disk on which every path lists the files `b`, `a` and the directories `y`, `x`. -/
def smallDisk : Disk :=
  { GetFileList := fun _ => ["b".toList, "a".toList], GetDirList := fun _ => ["y".toList, "x".toList] }

/-- A callback that does nothing. -/
def idleCallback : Heap → Nat → Unit → Heap × Unit :=
  fun h _ u => (h, u)

/-- A callback that appends the pointer it is given to the user data and leaves the heap
alone. -/
def noteCallback : Heap → Nat → List Nat → Heap × List Nat :=
  fun h ptr u => (h, u ++ [ptr])

/-- A callback that notes the pointer it is given and creates the child `z` of directory 0:
it changes the map that is being enumerated. -/
def growCallback : Heap → Nat → List Nat → Heap × List Nat :=
  fun h ptr u => ((DirBase.getDir h 0 "z".toList true).1, u ++ [ptr])

/-- The tree `diskTree` after a first `load()` from `oneFileDisk`. -/
def loadedTree : Heap :=
  DiskDir.load oneFileDisk diskTree 0

/-- The loaded tree after `getDir("new", true)` on the directory: the child `new` was added
after the first load. -/
def grownTree : Heap :=
  (DirBase.getDir loadedTree 0 "new".toList true).1

/-- The build with assertions: as `releaseTools`, with `assert` active. -/
def debugTools : Tools :=
  { releaseTools with NDEBUG := false }

/-- A fresh `VFSHelper` whose root holds the file `pack.bin` (file object 0). -/
def archiveState : VFSHelper :=
  { VFSHelper.init with
    heap :=
      { dirs := [{ DirObj.create ['/'] with _files := [("pack.bin".toList, 0)] }],
        files := [⟨"pack.bin".toList, "pack.bin".toList⟩] } }

/-- An archive loader that stores a companion file loader through the pointer it is handed
and then does not recognize the file. -/
def eagerArchiveLoader : VFSArchiveLoader :=
  { Load := fun _ _ => { dir := none, ldrWrite := some (some echoLoader) } }

/-- An archive loader that recognizes every file, returns a directory named after it and
supplies no companion file loader. -/
def plainArchiveLoader : VFSArchiveLoader :=
  { Load := fun af _ => { dir := some (DirObj.create af.fullname), ldrWrite := none } }

/-! ## Lemmas and theorems -/

theorem strchrSlash_some {p t sub : CStr} (hs : strchrSlash p = some (t, sub)) :
    p = t ++ '/' :: sub ∧ '/' ∉ t := by
  induction p generalizing t with
  | nil => simp [strchrSlash] at hs
  | cons c cs ih =>
    unfold strchrSlash at hs
    split at hs
    · next hc =>
      simp only [Option.some.injEq, Prod.mk.injEq] at hs
      obtain ⟨rfl, rfl⟩ := hs
      simp [hc]
    · next hc =>
      split at hs
      · simp at hs
      · next t0 sub0 h0 =>
        simp only [Option.some.injEq, Prod.mk.injEq] at hs
        obtain ⟨rfl, rfl⟩ := hs
        obtain ⟨h1, h2⟩ := ih h0
        refine ⟨by rw [h1]; simp, ?_⟩
        simp only [List.mem_cons, not_or]
        exact ⟨fun h => hc h.symm, h2⟩

theorem strchrSlash_none {p : CStr} : strchrSlash p = none ↔ '/' ∉ p := by
  induction p with
  | nil => simp [strchrSlash]
  | cons c cs ih =>
    unfold strchrSlash
    split
    · next hc => simp [hc]
    · next hc =>
      split
      · next h0 =>
        simp only [List.mem_cons, not_or, true_iff]
        exact ⟨fun h => hc h.symm, ih.mp h0⟩
      · next t0 sub0 h0 =>
        simp only [List.mem_cons, not_or, false_iff, reduceCtorEq, not_and, not_not]
        intro _
        have := (strchrSlash_some h0).1
        rw [this]; simp

theorem strchrSlash_length {p t sub : CStr} (hs : strchrSlash p = some (t, sub)) :
    sub.length < p.length := by
  rw [(strchrSlash_some hs).1]; simp; omega

theorem strchrSlash_append {t sub : CStr} (ht : '/' ∉ t) :
    strchrSlash (t ++ '/' :: sub) = some (t, sub) := by
  induction t with
  | nil => simp [strchrSlash]
  | cons c cs ih =>
    simp only [List.mem_cons, not_or] at ht
    have hc : c ≠ '/' := fun h => ht.1 h.symm
    simp [strchrSlash, hc, ih ht.2]

theorem getDirFuel_stable (n : Nat) : ∀ (m : Nat) (h : Heap) (d : Nat) (p : CStr) (fc : Bool),
    p.length < n → p.length < m →
    DirBase.getDirFuel n h d p fc = DirBase.getDirFuel m h d p fc := by
  induction n with
  | zero => intro m h d p fc hn; omega
  | succ n ih =>
    intro m h d p fc hn hm
    cases m with
    | zero => omega
    | succ m =>
      unfold DirBase.getDirFuel
      split
      · rfl
      · split
        · rfl
        · split
          · next t sub hs =>
            have hl := strchrSlash_length hs
            split
            · exact ih m _ _ _ _ (by omega) (by omega)
            · split
              · exact ih m _ _ _ _ (by omega) (by omega)
              · rfl
          · rfl

theorem getDir_unfold (h : Heap) (d : Nat) (p : CStr) (fc : Bool) :
    DirBase.getDir h d p fc =
      if isSelfPath p then (h, some d)
      else
        match h.dirs[d]? with
        | none => (h, none)
        | some me =>
          match strchrSlash p with
          | some (t, sub) =>
            match mapFind me._subdirs t with
            | some child => DirBase.getDir h child sub fc
            | none =>
              if fc then
                DirBase.getDir
                  (((h.createNew (if me.fullname.length ≠ 0 then me.fullname ++ '/' :: t else t)).1).linkSubdir
                    d h.dirs.length)
                  h.dirs.length sub true
              else (h, none)
          | none =>
            match mapFind me._subdirs p with
            | some child => (h, some child)
            | none =>
              if fc then
                (((h.createNew
                      (if me.fullname.length ≠ 0 then me.fullname ++ '/' :: p else p)).1).linkSubdir
                    d h.dirs.length,
                  some h.dirs.length)
              else (h, none) := by
  unfold DirBase.getDir
  conv_lhs => unfold DirBase.getDirFuel
  split
  · rfl
  · split
    · rfl
    · split
      · next t sub hs =>
        have hl := strchrSlash_length hs
        split
        · exact getDirFuel_stable _ _ _ _ _ _ (by omega) (by omega)
        · split
          · exact getDirFuel_stable _ _ _ _ _ _ (by omega) (by omega)
          · rfl
      · rfl

theorem skipDotSlash_length_le : ∀ (n : Nat) (p : CStr), p.length ≤ n → (skipDotSlash p).length ≤ p.length := by
  intro n
  induction n with
  | zero =>
    intro p hp
    match p with
    | [] => simp [skipDotSlash]
  | succ n ih =>
    intro p hp
    match p with
    | [] => simp [skipDotSlash]
    | [c] => simp [skipDotSlash]
    | c0 :: c1 :: rest =>
      unfold skipDotSlash
      split
      · have := ih rest (by simp at hp; omega)
        simp; omega
      · exact Nat.le_refl _

theorem getFileLoop_stable (n : Nat) : ∀ (m : Nat) (h : Heap) (d : Nat) (comp rest : CStr),
    rest.length < n → rest.length < m →
    DirBase.getFileLoop n h d comp rest = DirBase.getFileLoop m h d comp rest := by
  induction n with
  | zero => intro m h d comp rest hn; omega
  | succ n ih =>
    intro m h d comp rest hn hm
    cases m with
    | zero => omega
    | succ m =>
      unfold DirBase.getFileLoop
      split
      · rfl
      · split
        · rfl
        · next c1 r1 hs =>
          have hl := strchrSlash_length hs
          have hk := skipDotSlash_length_le _ rest (Nat.le_refl _)
          exact ih m _ _ _ _ (by omega) (by omega)

theorem getDirFuel_false_heap (n : Nat) : ∀ (h : Heap) (d : Nat) (p : CStr),
    (DirBase.getDirFuel n h d p false).1 = h := by
  induction n with
  | zero => intro h d p; rfl
  | succ n ih =>
    intro h d p
    unfold DirBase.getDirFuel
    split
    · rfl
    · split
      · rfl
      · split
        · split
          · exact ih _ _ _
          · simp
        · split
          · rfl
          · simp

/-- C1: for every directory `d` and either value of `forceCreate`, `DirBase::getDir` called
with the empty path, with `.` or with `./` returns `d` itself and leaves the whole heap (so
also the child-directory map of `d`) unchanged. -/
theorem C1_getDir_self_paths (h : Heap) (d : Nat) (forceCreate : Bool) :
    DirBase.getDir h d [] forceCreate = (h, some d) ∧
    DirBase.getDir h d ['.'] forceCreate = (h, some d) ∧
    DirBase.getDir h d ['.', '/'] forceCreate = (h, some d) :=
  ⟨rfl, rfl, rfl⟩

/-- C2: pure lookups never modify the tree: for every heap, directory and path,
`DirBase::getFile` and `DirBase::getDir` with `forceCreate = false` return the heap they
received, whether the lookup succeeds or not; no directory is created and no map changes. -/
theorem C2_lookup_leaves_tree_unchanged (h : Heap) (d : Nat) (p : CStr) :
    (DirBase.getFile h d p).1 = h ∧ (DirBase.getDir h d p false).1 = h := by
  constructor
  · unfold DirBase.getFile
    split <;> rfl
  · exact getDirFuel_false_heap _ _ _ _

/-- C9: a leading slash selects the child directory named with the empty string: when `d` has
no such child, `getFile` and `getDir` (without creation) on `/` followed by `p` return
not-found; when the child is `e`, they equal `e.getFile(p)` and `e.getDir(p, false)`. -/
theorem C9_leading_slash_selects_empty_named_child (h : Heap) (d : Nat) (p : CStr) :
    (h.subdir d [] = none →
      DirBase.getFile h d ('/' :: p) = (h, none) ∧
      DirBase.getDir h d ('/' :: p) false = (h, none)) ∧
    (∀ e : Nat, h.subdir d [] = some e →
      DirBase.getFile h d ('/' :: p) = DirBase.getFile h e p ∧
      DirBase.getDir h d ('/' :: p) false = DirBase.getDir h e p false) := by
  have hskip : skipDotSlash ('/' :: p) = '/' :: p := by
    cases p with
    | nil => rfl
    | cons c cs => simp [skipDotSlash]
  have hchr : strchrSlash ('/' :: p) = some ([], p) := by simp [strchrSlash]
  have hself : isSelfPath ('/' :: p) = false := by simp [isSelfPath]
  constructor
  · intro hnone
    constructor
    · simp only [DirBase.getFile, hskip, hchr, DirBase.getFileLoop, hnone]
    · rw [getDir_unfold]
      simp only [hself, hchr, Bool.false_eq_true, if_false]
      unfold Heap.subdir at hnone
      split
      · rfl
      · next me hme =>
        rw [hme] at hnone
        simp only at hnone
        rw [hnone]
  · intro e he
    constructor
    · have hL : DirBase.getFile h d ('/' :: p) = (h, DirBase.getFileLoop (p.length + 1) h d [] p) := by
        simp only [DirBase.getFile, hskip, hchr]
      rw [hL]
      unfold DirBase.getFile DirBase.getFileLoop
      simp only [he]
      cases hs : strchrSlash (skipDotSlash p) with
      | none => rfl
      | some tr =>
        obtain ⟨comp, rest⟩ := tr
        have hl := strchrSlash_length hs
        have hk := skipDotSlash_length_le _ p (Nat.le_refl _)
        simp only
        rw [getFileLoop_stable _ (rest.length + 1) _ _ _ _ (by omega) (by omega)]
        rfl
    · rw [getDir_unfold]
      simp only [hself, hchr, Bool.false_eq_true, if_false]
      unfold Heap.subdir at he
      split
      · next hme => rw [hme] at he; simp at he
      · next me hme =>
        rw [hme] at he
        simp only at he
        rw [he]

theorem strcmp_eq_zero_iff (a b : CStr) : strcmp a b = 0 ↔ a = b := by
  induction a generalizing b with
  | nil => cases b <;> simp [strcmp]
  | cons x xs ih =>
    cases b with
    | nil => simp [strcmp]
    | cons y ys =>
      unfold strcmp
      split
      · next hlt =>
        simp only [List.cons.injEq]
        constructor
        · intro h; omega
        · rintro ⟨rfl, _⟩; omega
      · split
        · next hlt =>
          simp only [List.cons.injEq]
          constructor
          · intro h; omega
          · rintro ⟨rfl, _⟩; omega
        · next h1 h2 =>
          have hxy : x = y := by
            have hn : x.toNat = y.toNat := by omega
            apply Char.ext
            apply UInt32.eq_of_val_eq
            apply Fin.ext
            exact hn
          simp [ih, hxy]

theorem same_eq_mountEquivalent (T : Tools) (hcmp : ∀ a b, T.casecmp a b = 0 ↔ a = b)
    (h : Heap) (ve oe : VDirEntry) : VDirEntry.same T h ve oe = mountEquivalent h ve oe := by
  unfold VDirEntry.same mountEquivalent
  have : decide (T.casecmp (h.fullname ve.vdir) (h.fullname oe.vdir) = 0)
      = decide (h.fullname ve.vdir = h.fullname oe.vdir) := by
    simp [hcmp]
  rw [this]

theorem mountEquivalent_symm (h : Heap) (a b : VDirEntry) :
    mountEquivalent h a b = mountEquivalent h b a := by
  unfold mountEquivalent
  rw [Bool.eq_iff_iff]
  simp only [Bool.and_eq_true, Bool.or_eq_true, decide_eq_true_eq]
  constructor
  · rintro ⟨h1, h2 | h2⟩
    · exact ⟨h1.symm, Or.inl h2.symm⟩
    · exact ⟨h1.symm, Or.inr h2.symm⟩
  · rintro ⟨h1, h2 | h2⟩
    · exact ⟨h1.symm, Or.inl h2.symm⟩
    · exact ⟨h1.symm, Or.inr h2.symm⟩

theorem mountEquivalent_refl (h : Heap) (a : VDirEntry) : mountEquivalent h a a = true := by
  simp [mountEquivalent]

theorem storeLoop_eq_filter (T : Tools) (hcmp : ∀ a b, T.casecmp a b = 0 ↔ a = b)
    (h : Heap) (ve : VDirEntry) (L : List VDirEntry) :
    VFSHelper.storeLoop T h ve L = L.filter (fun oe => !mountEquivalent h ve oe) := by
  induction L with
  | nil => rfl
  | cons oe rest ih =>
    unfold VFSHelper.storeLoop
    rw [same_eq_mountEquivalent T hcmp, ih]
    cases hq : mountEquivalent h ve oe <;> simp [List.filter, hq]

theorem removeLoop_spec (T : Tools) (hcmp : ∀ a b, T.casecmp a b = 0 ↔ a = b)
    (h : Heap) (ve : VDirEntry) (L : List VDirEntry) :
    ((VFSHelper.removeLoop T h ve L).2 = true →
      ∃ pre x post, L = pre ++ x :: post ∧ (∀ y ∈ pre, mountEquivalent h ve y = false) ∧
        mountEquivalent h ve x = true ∧ (VFSHelper.removeLoop T h ve L).1 = pre ++ post) ∧
    ((VFSHelper.removeLoop T h ve L).2 = false →
      (VFSHelper.removeLoop T h ve L).1 = L ∧ ∀ y ∈ L, mountEquivalent h ve y = false) := by
  induction L with
  | nil => simp [VFSHelper.removeLoop]
  | cons oe rest ih =>
    unfold VFSHelper.removeLoop
    rw [same_eq_mountEquivalent T hcmp]
    cases hq : mountEquivalent h ve oe
    · simp only [Bool.false_eq_true, if_false]
      constructor
      · intro hr
        obtain ⟨pre, x, post, h1, h2, h3, h4⟩ := ih.1 hr
        refine ⟨oe :: pre, x, post, by rw [h1]; rfl, ?_, h3, by rw [h4]; rfl⟩
        intro y hy
        rcases List.mem_cons.mp hy with rfl | hy
        · exact hq
        · exact h2 y hy
      · intro hr
        obtain ⟨h1, h2⟩ := ih.2 hr
        refine ⟨by rw [h1], ?_⟩
        intro y hy
        rcases List.mem_cons.mp hy with rfl | hy
        · exact hq
        · exact h2 y hy
    · simp only [if_true]
      constructor
      · intro _
        exact ⟨[], oe, rest, rfl, by simp, hq, rfl⟩
      · intro hr
        simp at hr

theorem removeLoop_append (T : Tools) (hcmp : ∀ a b, T.casecmp a b = 0 ↔ a = b)
    (h : Heap) (ve : VDirEntry) (L1 L2 : List VDirEntry)
    (hL1 : ∀ y ∈ L1, mountEquivalent h ve y = false) :
    VFSHelper.removeLoop T h ve (L1 ++ L2)
      = (L1 ++ (VFSHelper.removeLoop T h ve L2).1, (VFSHelper.removeLoop T h ve L2).2) := by
  induction L1 with
  | nil => rfl
  | cons a rest ih =>
    have ha := hL1 a (by simp)
    have ih1 := ih (fun y hy => hL1 y (by simp [hy]))
    have hstep : VFSHelper.removeLoop T h ve (a :: (rest ++ L2))
        = (a :: (VFSHelper.removeLoop T h ve (rest ++ L2)).1,
            (VFSHelper.removeLoop T h ve (rest ++ L2)).2) := by
      conv_lhs => unfold VFSHelper.removeLoop
      rw [same_eq_mountEquivalent T hcmp, ha]
      simp only [Bool.false_eq_true, if_false]
    rw [List.cons_append, hstep, ih1]
    rfl

/-- C5: `_StoreMountPoint(ve)` yields the mount list with every entry equivalent to `ve`
removed (the others in their original order) followed by `ve`; so `ve` is last, and a list
that held at most one entry per equivalence class still does. Entries are equivalent when
their mount points are equal and their directories are the same object or have equal full
names (`casecmp` is a comparison that returns 0 exactly on equal strings). -/
theorem C5_store_mount_point (T : Tools) (hcmp : ∀ a b, T.casecmp a b = 0 ↔ a = b)
    (s : VFSHelper) (ve : VDirEntry) :
    (VFSHelper._StoreMountPoint T s ve).vlist
        = s.vlist.filter (fun oe => !mountEquivalent s.heap ve oe) ++ [ve] ∧
    (VFSHelper._StoreMountPoint T s ve).vlist.getLast? = some ve ∧
    (s.vlist.Pairwise (fun a b => mountEquivalent s.heap a b = false) →
      (VFSHelper._StoreMountPoint T s ve).vlist.Pairwise
        (fun a b => mountEquivalent s.heap a b = false)) := by
  have hE : (VFSHelper._StoreMountPoint T s ve).vlist
      = s.vlist.filter (fun oe => !mountEquivalent s.heap ve oe) ++ [ve] := by
    unfold VFSHelper._StoreMountPoint
    simp only
    rw [storeLoop_eq_filter T hcmp]
  refine ⟨hE, ?_, ?_⟩
  · rw [hE]; simp
  · intro hp
    rw [hE, List.pairwise_append]
    refine ⟨hp.filter _, List.pairwise_singleton _ _, ?_⟩
    intro a ha b hb
    rw [List.mem_singleton] at hb
    subst hb
    have := (List.mem_filter.mp ha).2
    rw [mountEquivalent_symm]
    simpa using this

/-- C6: `_RemoveMountPoint(ve)` returns true iff the mount list has an entry equivalent to
`ve`; then exactly the first such entry is removed and the other entries keep their order;
when it returns false the state is unchanged. After `_StoreMountPoint(ve)` followed by
`_RemoveMountPoint(ve)` the list has no entry equivalent to `ve`. -/
theorem C6_remove_mount_point (T : Tools) (hcmp : ∀ a b, T.casecmp a b = 0 ↔ a = b)
    (s : VFSHelper) (ve : VDirEntry) :
    ((VFSHelper._RemoveMountPoint T s ve).2 = true ↔
      ∃ oe ∈ s.vlist, mountEquivalent s.heap ve oe = true) ∧
    ((VFSHelper._RemoveMountPoint T s ve).2 = true →
      ∃ pre x post, s.vlist = pre ++ x :: post ∧
        (∀ y ∈ pre, mountEquivalent s.heap ve y = false) ∧
        mountEquivalent s.heap ve x = true ∧
        (VFSHelper._RemoveMountPoint T s ve).1.vlist = pre ++ post) ∧
    ((VFSHelper._RemoveMountPoint T s ve).2 = false → (VFSHelper._RemoveMountPoint T s ve).1 = s) ∧
    (∀ oe ∈ (VFSHelper._RemoveMountPoint T (VFSHelper._StoreMountPoint T s ve) ve).1.vlist,
      mountEquivalent s.heap ve oe = false) := by
  have hspec := removeLoop_spec T hcmp s.heap ve s.vlist
  refine ⟨?_, ?_, ?_, ?_⟩
  · constructor
    · intro hr
      obtain ⟨pre, x, post, h1, _, h3, _⟩ := hspec.1 hr
      exact ⟨x, by rw [h1]; simp, h3⟩
    · rintro ⟨oe, hmem, heq⟩
      cases hr : (VFSHelper._RemoveMountPoint T s ve).2
      · have := (hspec.2 hr).2 oe hmem
        rw [heq] at this
        cases this
      · rfl
  · intro hr
    exact hspec.1 hr
  · intro hr
    have := (hspec.2 hr).1
    unfold VFSHelper._RemoveMountPoint
    simp only
    rw [this]
  · intro oe hoe
    have hfil : ∀ y ∈ s.vlist.filter (fun oe => !mountEquivalent s.heap ve oe),
        mountEquivalent s.heap ve y = false := by
      intro y hy
      simpa using (List.mem_filter.mp hy).2
    have hrm := removeLoop_append T hcmp s.heap ve _ [ve] hfil
    have hone : VFSHelper.removeLoop T s.heap ve [ve] = ([], true) := by
      simp [VFSHelper.removeLoop, same_eq_mountEquivalent T hcmp, mountEquivalent_refl]
    rw [hone] at hrm
    have hv : (VFSHelper._RemoveMountPoint T (VFSHelper._StoreMountPoint T s ve) ve).1.vlist
        = s.vlist.filter (fun oe => !mountEquivalent s.heap ve oe) := by
      unfold VFSHelper._RemoveMountPoint VFSHelper._StoreMountPoint
      simp only
      rw [storeLoop_eq_filter T hcmp, hrm]
      simp
    rw [hv] at hoe
    exact hfil oe hoe

theorem mapFind_assign_self (m : List (CStr × Nat)) (k : CStr) (v : Nat) :
    mapFind (mapAssign m k v) k = some v := by
  induction m with
  | nil => simp [mapAssign, mapFind]
  | cons kv rest ih =>
    obtain ⟨k0, v0⟩ := kv
    unfold mapAssign
    split
    · simp [mapFind]
    · next hne =>
      split
      · simp [mapFind]
      · simp [mapFind, hne, ih]

theorem mapFind_assign_ne (m : List (CStr × Nat)) (k k1 : CStr) (v : Nat) (hk : k1 ≠ k) :
    mapFind (mapAssign m k v) k1 = mapFind m k1 := by
  induction m with
  | nil => simp [mapAssign, mapFind, hk]
  | cons kv rest ih =>
    obtain ⟨k0, v0⟩ := kv
    unfold mapAssign
    split
    · next heq =>
      subst heq
      simp [mapFind, hk]
    · split
      · simp [mapFind, hk]
      · simp [mapFind, ih]

theorem mem_mapAssign (m : List (CStr × Nat)) (k : CStr) (v : Nat) (kv : CStr × Nat)
    (hkv : kv ∈ mapAssign m k v) : kv ∈ m ∨ kv = (k, v) := by
  induction m with
  | nil => simp [mapAssign] at hkv; exact Or.inr hkv
  | cons kv0 rest ih =>
    obtain ⟨k0, v0⟩ := kv0
    unfold mapAssign at hkv
    split at hkv
    · rcases List.mem_cons.mp hkv with h | h
      · exact Or.inr h
      · exact Or.inl (List.mem_cons_of_mem _ h)
    · split at hkv
      · rcases List.mem_cons.mp hkv with h | h
        · exact Or.inr h
        · exact Or.inl h
      · rcases List.mem_cons.mp hkv with h | h
        · exact Or.inl (by rw [h]; exact List.mem_cons_self _ _)
        · rcases ih h with h1 | h1
          · exact Or.inl (List.mem_cons_of_mem _ h1)
          · exact Or.inr h1

theorem mapFind_mem (m : List (CStr × Nat)) (k : CStr) (v : Nat) (hf : mapFind m k = some v) :
    (k, v) ∈ m := by
  induction m with
  | nil => simp [mapFind] at hf
  | cons kv0 rest ih =>
    obtain ⟨k0, v0⟩ := kv0
    unfold mapFind at hf
    split at hf
    · next heq =>
      simp only [Option.some.injEq] at hf
      subst hf; subst heq
      exact List.mem_cons_self _ _
    · exact List.mem_cons_of_mem _ (ih hf)

theorem baseName_no_slash (t : CStr) (ht : '/' ∉ t) : baseName t = t := by
  cases t with
  | nil => rfl
  | cons c cs =>
    simp only [List.mem_cons, not_or] at ht
    have hc : c ≠ '/' := fun h => ht.1 h.symm
    simp [baseName, ht.2, hc]

theorem baseName_append_slash (pre t : CStr) (ht : '/' ∉ t) : baseName (pre ++ '/' :: t) = t := by
  induction pre with
  | nil => simp [baseName, ht]
  | cons c cs ih =>
    have : '/' ∈ cs ++ '/' :: t := by simp
    rw [List.cons_append, baseName, if_pos this]
    exact ih

theorem wf_iff (h : Heap) :
    h.wf = true ↔ ∀ n ∈ h.dirs, ∀ kv ∈ n._subdirs, kv.2 < h.dirs.length := by
  simp [Heap.wf, List.all_eq_true]

theorem extendedBy_refl (h : Heap) : h.extendedBy h :=
  ⟨rfl, Nat.le_refl _, fun _ me hq => ⟨me, hq, rfl, rfl, rfl, fun _ _ hk => hk⟩⟩

theorem extendedBy_trans {h h1 h2 : Heap} (h01 : h.extendedBy h1) (h12 : h1.extendedBy h2) :
    h.extendedBy h2 := by
  obtain ⟨a1, a2, a3⟩ := h01
  obtain ⟨b1, b2, b3⟩ := h12
  refine ⟨b1.trans a1, Nat.le_trans a2 b2, ?_⟩
  intro q me hq
  obtain ⟨me1, c1, c2, c3, c4, c5⟩ := a3 q me hq
  obtain ⟨me2, d1, d2, d3, d4, d5⟩ := b3 q me1 c1
  exact ⟨me2, d1, d2.trans c2, d3.trans c3, d4.trans c4, fun k c hk => d5 k c (c5 k c hk)⟩

/-- The heap after `ins = createNew(nm); _subdirs[ins->name()] = ins;` run by directory `d`. -/
theorem createLink_eq (h : Heap) (d : Nat) (me : DirObj) (nm : CStr) (hd : h.dirs[d]? = some me) :
    ((h.createNew nm).1).linkSubdir d h.dirs.length =
      { dirs := (h.dirs ++ [DirObj.create nm]).set d
          { me with _subdirs := mapAssign me._subdirs (baseName nm) h.dirs.length },
        files := h.files } := by
  have hlt : d < h.dirs.length := by
    rcases Nat.lt_or_ge d h.dirs.length with hl | hl
    · exact hl
    · rw [List.getElem?_eq_none hl] at hd; cases hd
  have h1 : (h.dirs ++ [DirObj.create nm])[d]? = some me := by
    rw [List.getElem?_append_left hlt]; exact hd
  have h2 : (h.dirs ++ [DirObj.create nm])[h.dirs.length]? = some (DirObj.create nm) := by
    simp
  unfold Heap.linkSubdir Heap.createNew
  simp only [h1, h2]
  rfl

theorem createLink_getElem_self (h : Heap) (d : Nat) (me : DirObj) (nm : CStr)
    (hd : h.dirs[d]? = some me) :
    (((h.createNew nm).1).linkSubdir d h.dirs.length).dirs[d]? =
      some { me with _subdirs := mapAssign me._subdirs (baseName nm) h.dirs.length } := by
  have hlt : d < h.dirs.length := by
    rcases Nat.lt_or_ge d h.dirs.length with hl | hl
    · exact hl
    · rw [List.getElem?_eq_none hl] at hd; cases hd
  rw [createLink_eq h d me nm hd]
  simp only
  rw [List.getElem?_set_self (by simp; omega)]

theorem createLink_length (h : Heap) (d : Nat) (me : DirObj) (nm : CStr)
    (hd : h.dirs[d]? = some me) :
    (((h.createNew nm).1).linkSubdir d h.dirs.length).dirs.length = h.dirs.length + 1 := by
  rw [createLink_eq h d me nm hd]
  simp

theorem createLink_extendedBy (h : Heap) (d : Nat) (me : DirObj) (nm : CStr)
    (hd : h.dirs[d]? = some me) (hnone : mapFind me._subdirs (baseName nm) = none) :
    h.extendedBy (((h.createNew nm).1).linkSubdir d h.dirs.length) := by
  have hlt : d < h.dirs.length := by
    rcases Nat.lt_or_ge d h.dirs.length with hl | hl
    · exact hl
    · rw [List.getElem?_eq_none hl] at hd; cases hd
  refine ⟨by rw [createLink_eq h d me nm hd], by rw [createLink_length h d me nm hd]; omega, ?_⟩
  intro q mq hq
  by_cases hqd : q = d
  · subst hqd
    rw [hd] at hq
    cases hq
    refine ⟨_, createLink_getElem_self h q me nm hd, rfl, rfl, rfl, ?_⟩
    intro k c hk
    have hne : k ≠ baseName nm := by
      intro heq
      rw [heq, hnone] at hk
      cases hk
    simp only
    rw [mapFind_assign_ne _ _ _ _ hne]
    exact hk
  · have hql : q < h.dirs.length := by
      rcases Nat.lt_or_ge q h.dirs.length with hl | hl
      · exact hl
      · rw [List.getElem?_eq_none hl] at hq; cases hq
    refine ⟨mq, ?_, rfl, rfl, rfl, fun _ _ hk => hk⟩
    rw [createLink_eq h d me nm hd]
    simp only
    rw [List.getElem?_set_ne (fun e => hqd e.symm), List.getElem?_append_left hql]
    exact hq

theorem baseName_newname (full t : CStr) (ht : '/' ∉ t) :
    baseName (if full.length ≠ 0 then full ++ '/' :: t else t) = t := by
  split
  · exact baseName_append_slash full t ht
  · exact baseName_no_slash t ht

theorem getElem?_lt {α : Type} {l : List α} {i : Nat} {a : α} (h : l[i]? = some a) :
    i < l.length := by
  rcases Nat.lt_or_ge i l.length with hl | hl
  · exact hl
  · rw [List.getElem?_eq_none hl] at h; cases h

theorem createLink_wf (h : Heap) (d : Nat) (me : DirObj) (nm : CStr)
    (hd : h.dirs[d]? = some me) (hwf : h.wf = true) :
    (((h.createNew nm).1).linkSubdir d h.dirs.length).wf = true := by
  rw [wf_iff] at hwf ⊢
  rw [createLink_length h d me nm hd]
  rw [createLink_eq h d me nm hd]
  simp only
  intro n hn kv hkv
  rcases List.mem_or_eq_of_mem_set hn with hmem | heq
  · rcases List.mem_append.mp hmem with h1 | h1
    · have := hwf n h1 kv hkv
      omega
    · rw [List.mem_singleton] at h1
      subst h1
      simp [DirObj.create] at hkv
  · subst heq
    simp only at hkv
    rcases mem_mapAssign _ _ _ _ hkv with h1 | h1
    · have := hwf me (List.getElem?_mem hd) kv h1
      omega
    · rw [h1]; simp

theorem getDirFuel_extendedBy (n : Nat) : ∀ (h : Heap) (d : Nat) (p : CStr) (fc : Bool),
    h.extendedBy (DirBase.getDirFuel n h d p fc).1 := by
  induction n with
  | zero => intro h d p fc; exact extendedBy_refl h
  | succ n ih =>
    intro h d p fc
    unfold DirBase.getDirFuel
    split
    · exact extendedBy_refl h
    · split
      · exact extendedBy_refl h
      · next me hme =>
        split
        · next t sub hs =>
          split
          · exact ih _ _ _ _
          · next hnone =>
            split
            · refine extendedBy_trans (createLink_extendedBy h d me _ hme ?_) (ih _ _ _ _)
              rw [baseName_newname _ _ (strchrSlash_some hs).2]
              exact hnone
            · exact extendedBy_refl h
        · next hs =>
          split
          · exact extendedBy_refl h
          · next hnone =>
            split
            · refine createLink_extendedBy h d me _ hme ?_
              rw [baseName_newname _ _ (strchrSlash_none.mp hs)]
              exact hnone
            · exact extendedBy_refl h

theorem getDir_extendedBy (h : Heap) (d : Nat) (p : CStr) (fc : Bool) :
    h.extendedBy (DirBase.getDir h d p fc).1 :=
  getDirFuel_extendedBy _ _ _ _ _

theorem getDir_create_core (n : Nat) : ∀ (p : CStr) (h : Heap) (d : Nat),
    p.length ≤ n → h.wf = true → d < h.dirs.length →
    ∃ h1 r, DirBase.getDir h d p true = (h1, some r) ∧ h.extendedBy h1 ∧ h1.wf = true ∧
      r < h1.dirs.length ∧
      DirBase.getDir h1 d p false = (h1, some r) ∧
      DirBase.getDir h1 d p true = (h1, some r) := by
  induction n with
  | zero =>
    intro p h d hp hwf hd
    have : p = [] := List.length_eq_zero.mp (by omega)
    subst this
    exact ⟨h, d, rfl, extendedBy_refl h, hwf, hd, rfl, rfl⟩
  | succ n ih =>
    intro p h d hp hwf hd
    by_cases hself : isSelfPath p = true
    · refine ⟨h, d, ?_, extendedBy_refl h, hwf, hd, ?_, ?_⟩ <;>
        (rw [getDir_unfold]; simp only [hself, if_true])
    · replace hself : isSelfPath p = false := by simpa using hself
      obtain ⟨me, hme⟩ : ∃ me, h.dirs[d]? = some me := ⟨h.dirs[d], List.getElem?_eq_getElem hd⟩
      cases hs : strchrSlash p with
      | some ts =>
        obtain ⟨t, sub⟩ := ts
        have hlen := strchrSlash_length hs
        have htno := (strchrSlash_some hs).2
        cases hfind : mapFind me._subdirs t with
        | some child =>
          have hchild : child < h.dirs.length :=
            (wf_iff h).mp hwf me (List.getElem?_mem hme) (t, child) (mapFind_mem _ _ _ hfind)
          obtain ⟨h1, r, e1, e2, e3, e4, e5, e6⟩ := ih sub h child (by omega) hwf hchild
          obtain ⟨me1, f1, _, _, _, f5⟩ := e2.2.2 d me hme
          have hfind1 := f5 t child hfind
          refine ⟨h1, r, ?_, e2, e3, e4, ?_, ?_⟩
          · rw [getDir_unfold]; simp only [hself, hme, hs, hfind, Bool.false_eq_true, if_false]; exact e1
          · rw [getDir_unfold]; simp only [hself, f1, hs, hfind1, Bool.false_eq_true, if_false]; exact e5
          · rw [getDir_unfold]; simp only [hself, f1, hs, hfind1, Bool.false_eq_true, if_false]; exact e6
        | none =>
          have hbn := baseName_newname me.fullname t htno
          have hx := createLink_extendedBy h d me _ hme (by rw [hbn]; exact hfind)
          have hw := createLink_wf h d me (if me.fullname.length ≠ 0 then me.fullname ++ '/' :: t else t) hme hwf
          have hl := createLink_length h d me (if me.fullname.length ≠ 0 then me.fullname ++ '/' :: t else t) hme
          have hg := createLink_getElem_self h d me (if me.fullname.length ≠ 0 then me.fullname ++ '/' :: t else t) hme
          obtain ⟨h1, r, e1, e2, e3, e4, e5, e6⟩ := ih sub _ h.dirs.length (by omega) hw (by rw [hl]; omega)
          obtain ⟨me1, f1, _, _, _, f5⟩ := e2.2.2 d _ hg
          have hfind1 := f5 t h.dirs.length (by simp only; rw [hbn]; exact mapFind_assign_self _ _ _)
          refine ⟨h1, r, ?_, extendedBy_trans hx e2, e3, e4, ?_, ?_⟩
          · rw [getDir_unfold]; simp only [hself, hme, hs, hfind, if_true, Bool.false_eq_true, if_false]; exact e1
          · rw [getDir_unfold]; simp only [hself, f1, hs, hfind1, Bool.false_eq_true, if_false]; exact e5
          · rw [getDir_unfold]; simp only [hself, f1, hs, hfind1, Bool.false_eq_true, if_false]; exact e6
      | none =>
        have htno := strchrSlash_none.mp hs
        cases hfind : mapFind me._subdirs p with
        | some child =>
          have hchild : child < h.dirs.length :=
            (wf_iff h).mp hwf me (List.getElem?_mem hme) (p, child) (mapFind_mem _ _ _ hfind)
          refine ⟨h, child, ?_, extendedBy_refl h, hwf, hchild, ?_, ?_⟩ <;>
            (rw [getDir_unfold]; simp only [hself, hme, hs, hfind, Bool.false_eq_true, if_false])
        | none =>
          have hbn := baseName_newname me.fullname p htno
          have hx := createLink_extendedBy h d me _ hme (by rw [hbn]; exact hfind)
          have hw := createLink_wf h d me (if me.fullname.length ≠ 0 then me.fullname ++ '/' :: p else p) hme hwf
          have hl := createLink_length h d me (if me.fullname.length ≠ 0 then me.fullname ++ '/' :: p else p) hme
          have hg := createLink_getElem_self h d me (if me.fullname.length ≠ 0 then me.fullname ++ '/' :: p else p) hme
          have hfind1 : mapFind (mapAssign me._subdirs
              (baseName (if me.fullname.length ≠ 0 then me.fullname ++ '/' :: p else p)) h.dirs.length) p
              = some h.dirs.length := by
            rw [hbn]; exact mapFind_assign_self _ _ _
          refine ⟨_, h.dirs.length, ?_, hx, hw, by rw [hl]; omega, ?_, ?_⟩
          · rw [getDir_unfold]; simp only [hself, hme, hs, hfind, if_true, Bool.false_eq_true, if_false]
          · rw [getDir_unfold]; simp only [hself, hg, hs, hfind1, Bool.false_eq_true, if_false]
          · rw [getDir_unfold]; simp only [hself, hg, hs, hfind1, Bool.false_eq_true, if_false]

/-- C3: for every directory `d` of a well-formed heap and every normalized path `p`,
`d.getDir(p, true)` returns a directory (never not-found); afterwards `d.getDir(p, false)`
returns that same directory, and a second `d.getDir(p, true)` returns it too and changes
nothing. -/
theorem C3_getDir_create_then_lookup (h : Heap) (d : Nat) (p : CStr)
    (hwf : h.wf = true) (hd : d < h.dirs.length) (_hp : normalizedPath p = true) :
    ∃ n, (DirBase.getDir h d p true).2 = some n ∧
      DirBase.getDir (DirBase.getDir h d p true).1 d p false
        = ((DirBase.getDir h d p true).1, some n) ∧
      DirBase.getDir (DirBase.getDir h d p true).1 d p true
        = ((DirBase.getDir h d p true).1, some n) := by
  obtain ⟨h1, r, e1, _, _, _, e5, e6⟩ := getDir_create_core p.length p h d (Nat.le_refl _) hwf hd
  refine ⟨r, ?_, ?_, ?_⟩
  · rw [e1]
  · rw [e1]; exact e5
  · rw [e1]; exact e6

theorem Dir_add_files (h : Heap) (d : Nat) (f : Option Nat) : (Dir.add h d f).1.files = h.files := by
  unfold Dir.add
  split
  · rfl
  · split
    · split
      · split <;> rfl
      · rfl
    · rfl

theorem getDir_files_of_eq {h h1 : Heap} {d : Nat} {p : CStr} {fc : Bool} {r : Option Nat}
    (heq : DirBase.getDir h d p fc = (h1, r)) : h1.files = h.files := by
  have := (getDir_extendedBy h d p fc).1
  rw [heq] at this
  exact this

theorem Dir_addRecursive_files (h : Heap) (d : Nat) (f : Option Nat) :
    (Dir.addRecursive h d f).1.files = h.files := by
  unfold Dir.addRecursive
  split
  · rfl
  · split
    · rfl
    · split
      · split
        · next h1 vdir heq =>
          rw [Dir_add_files]
          exact getDir_files_of_eq heq
        · next h1 heq =>
          exact getDir_files_of_eq heq
      · exact Dir_add_files _ _ _

theorem fileLoaderLoop_cons_null (fn unmangled : CStr) (L : List (Option VFSLoader)) (idx : Nat)
    (s : VFSHelper) :
    VFSHelper.fileLoaderLoop fn unmangled (none :: L) idx s
      = VFSHelper.fileLoaderLoop fn unmangled L (idx + 1) s := rfl

theorem fileLoaderLoop_cons_miss (fn unmangled : CStr) (l : VFSLoader) (L : List (Option VFSLoader))
    (idx : Nat) (s : VFSHelper) (hl : l.Load fn unmangled = none) :
    VFSHelper.fileLoaderLoop fn unmangled (some l :: L) idx s
      = VFSHelper.fileLoaderLoop fn unmangled L (idx + 1)
          { s with calls := s.calls ++ [LoaderCall.load idx fn unmangled] } := by
  simp only [VFSHelper.fileLoaderLoop, VFSHelper_GetFileByLoader, hl]

theorem fileLoaderLoop_misses (fn unmangled : CStr) (pre rest : List (Option VFSLoader)) :
    ∀ (idx : Nat) (s : VFSHelper), (∀ x ∈ pre, loaderMisses fn unmangled x) →
    ∃ cs, (∀ c ∈ cs, ∃ i, idx ≤ i ∧ i < idx + pre.length ∧ c = LoaderCall.load i fn unmangled) ∧
      VFSHelper.fileLoaderLoop fn unmangled (pre ++ rest) idx s
        = VFSHelper.fileLoaderLoop fn unmangled rest (idx + pre.length)
            { s with calls := s.calls ++ cs } := by
  induction pre with
  | nil =>
    intro idx s _
    exact ⟨[], by simp, by simp⟩
  | cons x xs ih =>
    intro idx s hx
    have hx0 := hx x (by simp)
    have hxs : ∀ y ∈ xs, loaderMisses fn unmangled y := fun y hy => hx y (by simp [hy])
    rcases hx0 with rfl | ⟨l, rfl, hl⟩
    · obtain ⟨cs, hc1, hc2⟩ := ih (idx + 1) s hxs
      refine ⟨cs, ?_, ?_⟩
      · intro c hc
        obtain ⟨i, h1, h2, h3⟩ := hc1 c hc
        exact ⟨i, by omega, by simp; omega, h3⟩
      · rw [List.cons_append, fileLoaderLoop_cons_null, hc2]
        have : idx + 1 + xs.length = idx + (none :: xs : List (Option VFSLoader)).length := by
          simp only [List.length_cons]; omega
        rw [this]
    · obtain ⟨cs, hc1, hc2⟩ := ih (idx + 1)
        { s with calls := s.calls ++ [LoaderCall.load idx fn unmangled] } hxs
      refine ⟨LoaderCall.load idx fn unmangled :: cs, ?_, ?_⟩
      · intro c hc
        rcases List.mem_cons.mp hc with rfl | hc
        · exact ⟨idx, Nat.le_refl _, by simp, rfl⟩
        · obtain ⟨i, h1, h2, h3⟩ := hc1 c hc
          exact ⟨i, by omega, by simp; omega, h3⟩
      · rw [List.cons_append, fileLoaderLoop_cons_miss _ _ _ _ _ _ hl, hc2]
        have : idx + 1 + xs.length = idx + (some l :: xs).length := by
          simp only [List.length_cons]; omega
        rw [this]
        simp only [List.append_assoc, List.singleton_append]

/-- C7: loader dispatch of `VFSHelper::GetFile`. When the normalized path resolves in the
cached tree, that file is returned and the state (so also the record of loader calls) is
unchanged. Otherwise, when the loaders before `l` give nothing and `l` gives the file `fo`,
the result is a pointer to `fo` and only loaders up to `l` were called; when every loader
gives nothing (also with no loader registered) the result is not-found. -/
theorem C7_GetFile_loader_dispatch (T : Tools) (s : VFSHelper) (m : Nat) (fn : CStr)
    (hm : s.merged = some m) :
    (∀ f, (DirBase.getFile s.heap m (T.FixPath fn)).2 = some f →
      VFSHelper.GetFile T s fn = (s, some f)) ∧
    ((DirBase.getFile s.heap m (T.FixPath fn)).2 = none →
      (∀ pre l post fo, s.loaders = pre ++ some l :: post →
        (∀ x ∈ pre, loaderMisses (T.FixPath fn) fn x) →
        l.Load (T.FixPath fn) fn = some fo →
        (VFSHelper.GetFile T s fn).2 = some s.heap.files.length ∧
        (VFSHelper.GetFile T s fn).1.heap.files[s.heap.files.length]? = some fo ∧
        ∃ cs, (VFSHelper.GetFile T s fn).1.calls
            = s.calls ++ cs ++ [LoaderCall.load pre.length (T.FixPath fn) fn] ∧
          ∀ c ∈ cs, ∃ i, i < pre.length ∧ c = LoaderCall.load i (T.FixPath fn) fn) ∧
      ((∀ x ∈ s.loaders, loaderMisses (T.FixPath fn) fn x) →
        (VFSHelper.GetFile T s fn).2 = none)) := by
  obtain ⟨heap, merged, vlist, loaders, calls⟩ := s
  simp only at hm
  subst hm
  have hheap : (DirBase.getFile heap m (T.FixPath fn)).1 = heap := by
    unfold DirBase.getFile
    split <;> rfl
  simp only
  constructor
  · intro f hf
    unfold VFSHelper.GetFile
    simp only
    split
    · next h1 vf heq =>
      rw [heq] at hf hheap
      simp only at hf hheap
      cases hf
      subst hheap
      rfl
    · next h1 heq =>
      rw [heq] at hf
      cases hf
  · intro hmiss
    have hG : VFSHelper.GetFile T (VFSHelper.mk heap (some m) vlist loaders calls) fn
        = VFSHelper.fileLoaderLoop (T.FixPath fn) fn loaders 0
            (VFSHelper.mk heap (some m) vlist loaders calls) := by
      unfold VFSHelper.GetFile
      simp only
      split
      · next h1 vf heq =>
        rw [heq] at hmiss
        cases hmiss
      · next h1 heq =>
        rw [heq] at hheap
        simp only at hheap
        subst hheap
        rfl
    rw [hG]
    constructor
    · intro pre l post fo hl hpre hload
      obtain ⟨cs, hc1, hc2⟩ := fileLoaderLoop_misses (T.FixPath fn) fn pre (some l :: post) 0
        (VFSHelper.mk heap (some m) vlist loaders calls) hpre
      subst hl
      rw [hc2]
      simp only [VFSHelper.fileLoaderLoop, VFSHelper_GetFileByLoader, hload, Nat.zero_add]
      refine ⟨trivial, ?_, cs, by simp, ?_⟩
      · rw [Dir_addRecursive_files]
        simp
      · intro c hc
        obtain ⟨i, _, h2, h3⟩ := hc1 c hc
        exact ⟨i, by omega, h3⟩
    · intro hall
      obtain ⟨cs, _, hc2⟩ := fileLoaderLoop_misses (T.FixPath fn) fn loaders [] 0
        (VFSHelper.mk heap (some m) vlist loaders calls) hall
      rw [List.append_nil] at hc2
      rw [hc2]
      rfl

/-- C3 at a concrete input: creating `a/c/d` under the root of `smallTree`. -/
theorem C3_getDir_create_then_lookup_witness :
    ∃ n, (DirBase.getDir smallTree 0 "a/c/d".toList true).2 = some n ∧
      DirBase.getDir (DirBase.getDir smallTree 0 "a/c/d".toList true).1 0 "a/c/d".toList false
        = ((DirBase.getDir smallTree 0 "a/c/d".toList true).1, some n) ∧
      DirBase.getDir (DirBase.getDir smallTree 0 "a/c/d".toList true).1 0 "a/c/d".toList true
        = ((DirBase.getDir smallTree 0 "a/c/d".toList true).1, some n) :=
  C3_getDir_create_then_lookup smallTree 0 "a/c/d".toList (by decide) (by decide) (by decide)

/-- C4, the code at the failing input: in the release build `AddVFSDir(backing, "assets")`
returns true, the backing directory holds `a.txt`, and `GetFile` on `assets/a.txt` and on
`assets/sub/b.txt` still returns not-found, because the merge step is commented out. -/
theorem C4_mount_does_not_graft :
    (VFSHelper.AddVFSDir releaseTools mountState (some 1) (some "assets".toList)).val?.map
        (fun r => r.2) = some true ∧
    Dir.getFileByName mountState.heap 1 "a.txt".toList = some 0 ∧
    (VFSHelper.GetFile releaseTools mountedState "assets/a.txt".toList).2 = none ∧
    (VFSHelper.GetFile releaseTools mountedState "assets/sub/b.txt".toList).2 = none := by
  decide

/-- C5 at a concrete input: storing an entry equivalent to the first of two entries moves it
to the end of the list. -/
theorem C5_store_mount_point_witness :
    (VFSHelper._StoreMountPoint releaseTools tableState ⟨1, "assets".toList⟩).vlist
      = [⟨2, "other".toList⟩, ⟨1, "assets".toList⟩] :=
  (C5_store_mount_point releaseTools strcmp_eq_zero_iff tableState ⟨1, "assets".toList⟩).1.trans
    (by decide)

/-- C6 at a concrete input: removing the second of two entries returns true. -/
theorem C6_remove_mount_point_witness :
    (VFSHelper._RemoveMountPoint releaseTools tableState ⟨2, "other".toList⟩).2 = true :=
  (C6_remove_mount_point releaseTools strcmp_eq_zero_iff tableState ⟨2, "other".toList⟩).1.mpr
    ⟨⟨2, "other".toList⟩, by decide, by decide⟩

/-- C7 at a concrete input: after a null loader and a loader that gives nothing, the third
loader gives the file; the result is the new file object 0. -/
theorem C7_GetFile_loader_dispatch_witness :
    (VFSHelper.GetFile releaseTools loaderState "x.txt".toList).2 = some 0 :=
  (((C7_GetFile_loader_dispatch releaseTools loaderState 0 "x.txt".toList rfl).2 (by decide)).1
    [none, some emptyLoader] echoLoader [some echoLoader] ⟨"x.txt".toList, "x.txt".toList⟩ rfl
    (by
      intro x hx
      rcases List.mem_cons.mp hx with rfl | hx
      · exact Or.inl rfl
      · rcases List.mem_cons.mp hx with rfl | hx
        · exact Or.inr ⟨emptyLoader, rfl, rfl⟩
        · cases hx)
    rfl).1

/-- C8, the code at the failing input: the file with full name `/x.txt` and name `x.txt`
is spliced by `addRecursive` into the file map of the root itself, and the lookup of
`/x.txt`, which descends into the child named with the empty string, returns not-found. -/
theorem C8_splice_of_root_level_absolute_file_is_not_found :
    normalizedPath "/x.txt".toList = true ∧
    spliceTree.files[0]? = some ⟨"/x.txt".toList, "x.txt".toList⟩ ∧
    (components "/x.txt".toList).getLast? = some "x.txt".toList ∧
    (Dir.addRecursive spliceTree 0 (some 0)).2 = true ∧
    Dir.getFileByName (Dir.addRecursive spliceTree 0 (some 0)).1 0 "x.txt".toList = some 0 ∧
    (DirBase.getFile (Dir.addRecursive spliceTree 0 (some 0)).1 0 "/x.txt".toList).2 = none := by
  decide

/-- C9 at a concrete input: the root of `absTree` has the child 1 named with the empty
string, so looking up `/x.txt` from the root is looking up `x.txt` from that child. -/
theorem C9_leading_slash_selects_empty_named_child_witness :
    absTree.subdir 0 [] = some 1 ∧
    DirBase.getFile absTree 0 ('/' :: "x.txt".toList) = DirBase.getFile absTree 1 "x.txt".toList ∧
    DirBase.getDir absTree 0 ('/' :: "home".toList) false
      = DirBase.getDir absTree 1 "home".toList false :=
  ⟨by decide,
    (C9_leading_slash_selects_empty_named_child absTree 0 "x.txt".toList).2 1 (by decide) |>.1,
    (C9_leading_slash_selects_empty_named_child absTree 0 "home".toList).2 1 (by decide) |>.2⟩

/-- C10, the code at the failing input: `getDir` on `./a` returns the directory it was
called on (0) and not the child `a` (1) that `getDir` on `a` returns; and `a/./b` gives `a`
(1) where `a/b` gives `b` (2). With `forceCreate` the path `./c` creates nothing. -/
theorem C10_getDir_does_not_skip_dot_slash :
    DirBase.getDir smallTree 0 "./a".toList false = (smallTree, some 0) ∧
    DirBase.getDir smallTree 0 "a".toList false = (smallTree, some 1) ∧
    DirBase.getDir smallTree 0 "a/./b".toList false = (smallTree, some 1) ∧
    DirBase.getDir smallTree 0 "a/b".toList false = (smallTree, some 2) ∧
    DirBase.getDir smallTree 0 "./c".toList true = (smallTree, some 0) ∧
    (DirBase.getDir smallTree 0 "c".toList true).2 = some 3 := by
  decide

theorem getFileLoop_step (h : Heap) (d : Nat) (comp rest : CStr) :
    DirBase.getFileLoop (rest.length + 1) h d comp rest =
      match h.subdir d comp with
      | none => none
      | some next => (DirBase.getFile h next rest).2 := by
  conv_lhs => unfold DirBase.getFileLoop
  cases hsub : h.subdir d comp with
  | none => rfl
  | some next =>
    simp only
    unfold DirBase.getFile
    cases hs : strchrSlash (skipDotSlash rest) with
    | none => rfl
    | some tr =>
      obtain ⟨comp1, rest1⟩ := tr
      have hl := strchrSlash_length hs
      have hk := skipDotSlash_length_le _ rest (Nat.le_refl _)
      simp only
      exact getFileLoop_stable _ _ _ _ _ _ (by omega) (by omega)

theorem skipDotSlash_component (c p : CStr) (hc : '/' ∉ c) (hdot : c ≠ ['.']) :
    skipDotSlash (c ++ '/' :: p) = c ++ '/' :: p := by
  match c, hc, hdot with
  | [], _, _ =>
    cases p with
    | nil => rfl
    | cons y ys => simp [skipDotSlash]
  | [x], _, hdot =>
    have hx : x ≠ '.' := fun e => hdot (by rw [e])
    simp [skipDotSlash, hx]
  | x :: y :: r, hc, _ =>
    simp only [List.mem_cons, not_or] at hc
    have hy : y ≠ '/' := fun e => hc.2.1 e.symm
    simp [skipDotSlash, hy]

theorem skipDotSlash_no_slash (p : CStr) (hp : '/' ∉ p) : skipDotSlash p = p := by
  match p, hp with
  | [], _ => rfl
  | [x], _ => rfl
  | x :: y :: r, hp =>
    simp only [List.mem_cons, not_or] at hp
    have hy : y ≠ '/' := fun e => hp.2.1 e.symm
    simp [skipDotSlash, hy]

/-- C14: the iterative `DirBase::getFile` equals the component-wise recursive definition. For
a component `c` without slash and other than `.`, `getFile` on `c/p` is not-found when `d`
has no child directory named `c` and is `child.getFile(p)` otherwise; on a path without slash
it is `getFileByName`; and a leading `./` is skipped. -/
theorem C14_getFile_componentwise (h : Heap) (d : Nat) (c p : CStr) :
    ('/' ∉ c → c ≠ ['.'] →
      (h.subdir d c = none → DirBase.getFile h d (c ++ '/' :: p) = (h, none)) ∧
      (∀ child, h.subdir d c = some child →
        DirBase.getFile h d (c ++ '/' :: p) = DirBase.getFile h child p)) ∧
    ('/' ∉ p → DirBase.getFile h d p = (h, Dir.getFileByName h d p)) ∧
    DirBase.getFile h d ('.' :: '/' :: p) = DirBase.getFile h d p := by
  refine ⟨?_, ?_, ?_⟩
  · intro hc hdot
    have hL : DirBase.getFile h d (c ++ '/' :: p)
        = (h, DirBase.getFileLoop (p.length + 1) h d c p) := by
      simp only [DirBase.getFile, skipDotSlash_component c p hc hdot, strchrSlash_append hc]
    rw [hL, getFileLoop_step]
    constructor
    · intro hnone
      rw [hnone]
    · intro child hchild
      rw [hchild]
      have : (DirBase.getFile h child p).1 = h := by
        unfold DirBase.getFile
        split <;> rfl
      simp only
      exact Prod.ext this.symm rfl
  · intro hp
    simp only [DirBase.getFile, skipDotSlash_no_slash p hp, strchrSlash_none.mpr hp]
  · have : skipDotSlash ('.' :: '/' :: p) = skipDotSlash p := by simp [skipDotSlash]
    simp only [DirBase.getFile, this]

/-- C14 at a concrete input: in `absTree` the path `home/x` from directory 1 continues at its
child `home` (2), and a path without slash is a plain lookup by name. -/
theorem C14_getFile_componentwise_witness :
    DirBase.getFile absTree 1 ("home".toList ++ '/' :: "x".toList)
      = DirBase.getFile absTree 2 "x".toList ∧
    DirBase.getFile absTree 1 "x.txt".toList = (absTree, Dir.getFileByName absTree 1 "x.txt".toList) :=
  ⟨((C14_getFile_componentwise absTree 1 "home".toList "x".toList).1 (by decide) (by decide)).2 2
      (by decide),
    (C14_getFile_componentwise absTree 1 [] "x.txt".toList).2.1 (by decide)⟩

theorem mapFind_erase_ne (m : List (CStr × Nat)) (k k1 : CStr) (hk : k1 ≠ k) :
    mapFind (mapErase m k) k1 = mapFind m k1 := by
  induction m with
  | nil => rfl
  | cons kv rest ih =>
    obtain ⟨k0, v0⟩ := kv
    unfold mapErase
    split
    · next heq =>
      subst heq
      simp [mapFind, hk]
    · simp [mapFind, ih]

theorem getFileByName_putDir (h : Heap) (self : Nat) (me me1 : DirObj) (k : CStr)
    (hme : h.dirs[self]? = some me) :
    Dir.getFileByName (h.putDir self me1) self k = mapFind me1._files k := by
  have hlt := getElem?_lt hme
  unfold Dir.getFileByName Heap.putDir
  simp only
  rw [List.getElem?_set_self hlt]

/-- C16: `Dir::add(f)` replaces the map entry by name. On a null `f` it returns false and
changes nothing. On a live file `f` it returns false iff the entry stored under the name of
`f` is `f` itself, and then nothing changes; otherwise it returns true, `getFileByName` on
the name of `f` then returns `f`, and the lookup of every other name is as before. -/
theorem C16_Dir_add_replaces_entry (h : Heap) (self fp : Nat) (me : DirObj) (fo : FileObj)
    (hme : h.dirs[self]? = some me) (hfo : h.files[fp]? = some fo) :
    Dir.add h self none = (h, false) ∧
    ((Dir.add h self (some fp)).2 = false ↔ mapFind me._files fo.name = some fp) ∧
    ((Dir.add h self (some fp)).2 = false → (Dir.add h self (some fp)).1 = h) ∧
    ((Dir.add h self (some fp)).2 = true →
      Dir.getFileByName (Dir.add h self (some fp)).1 self fo.name = some fp ∧
      ∀ k, k ≠ fo.name →
        Dir.getFileByName (Dir.add h self (some fp)).1 self k = Dir.getFileByName h self k) := by
  have hold : ∀ k, Dir.getFileByName h self k = mapFind me._files k := by
    intro k
    unfold Dir.getFileByName
    rw [hme]
  refine ⟨rfl, ?_⟩
  cases hfind : mapFind me._files fo.name with
  | none =>
    have hE : Dir.add h self (some fp)
        = (h.putDir self { me with _files := mapAssign me._files fo.name fp }, true) := by
      simp only [Dir.add, hme, hfo, hfind]
    rw [hE]
    refine ⟨by simp, by simp, ?_⟩
    intro _
    simp only
    constructor
    · rw [getFileByName_putDir h self me _ _ hme]
      exact mapFind_assign_self _ _ _
    · intro k hk
      rw [getFileByName_putDir h self me _ _ hme, hold]
      exact mapFind_assign_ne _ _ _ _ hk
  | some oldf =>
    by_cases hsame : oldf = fp
    · have hE : Dir.add h self (some fp) = (h, false) := by
        simp only [Dir.add, hme, hfo, hfind, hsame, if_true]
      rw [hE]
      refine ⟨by simp [hsame], fun _ => rfl, ?_⟩
      intro hc
      simp at hc
    · have hE : Dir.add h self (some fp)
          = (h.putDir self
              { me with _files := mapAssign (mapErase me._files fo.name) fo.name fp }, true) := by
        simp only [Dir.add, hme, hfo, hfind, hsame, if_false]
      rw [hE]
      refine ⟨by simp [hsame], by simp, ?_⟩
      intro _
      simp only
      constructor
      · rw [getFileByName_putDir h self me _ _ hme]
        exact mapFind_assign_self _ _ _
      · intro k hk
        rw [getFileByName_putDir h self me _ _ hme, hold]
        simp only
        rw [mapFind_assign_ne _ _ _ _ hk, mapFind_erase_ne _ _ _ hk]

/-- C16 at a concrete input: adding the file object 0 (`/x.txt`, name `x.txt`) to the root of
`spliceTree` returns true and the name then resolves to it. -/
theorem C16_Dir_add_replaces_entry_witness :
    (Dir.add spliceTree 0 (some 0)).2 = true ∧
    Dir.getFileByName (Dir.add spliceTree 0 (some 0)).1 0 "x.txt".toList = some 0 :=
  have hT : (Dir.add spliceTree 0 (some 0)).2 = true := by decide
  ⟨hT, ((C16_Dir_add_replaces_entry spliceTree 0 0 (DirObj.create []) ⟨"/x.txt".toList, "x.txt".toList⟩
      (by decide) (by decide)).2.2.2 hT).1⟩

theorem extendedBy_subdir {h h1 : Heap} (he : h.extendedBy h1) (x : Nat) (k : CStr) (c : Nat)
    (hs : h.subdir x k = some c) : h1.subdir x k = some c := by
  unfold Heap.subdir at hs ⊢
  cases hx : h.dirs[x]? with
  | none => rw [hx] at hs; cases hs
  | some me =>
    rw [hx] at hs
    obtain ⟨me1, f1, _, _, _, f5⟩ := he.2.2 x me hx
    rw [f1]
    exact f5 k c hs

theorem extendedBy_getFileByName {h h1 : Heap} (he : h.extendedBy h1) (x : Nat) (k : CStr) (f : Nat)
    (hs : Dir.getFileByName h x k = some f) : Dir.getFileByName h1 x k = some f := by
  unfold Dir.getFileByName at hs ⊢
  cases hx : h.dirs[x]? with
  | none => rw [hx] at hs; cases hs
  | some me =>
    rw [hx] at hs
    obtain ⟨me1, f1, _, _, f4, _⟩ := he.2.2 x me hx
    rw [f1]
    simp only at hs ⊢
    rw [f4]
    exact hs

theorem getDirFuel_false_mono (n : Nat) : ∀ (h h1 : Heap) (x : Nat) (q : CStr) (r : Nat),
    h.extendedBy h1 → (DirBase.getDirFuel n h x q false).2 = some r →
    (DirBase.getDirFuel n h1 x q false).2 = some r := by
  induction n with
  | zero =>
    intro h h1 x q r _ hr
    simp [DirBase.getDirFuel] at hr
  | succ n ih =>
    intro h h1 x q r he hr
    unfold DirBase.getDirFuel at hr ⊢
    by_cases hself : isSelfPath q = true
    · simp only [hself, if_true] at hr ⊢
      exact hr
    · simp only [hself, if_false] at hr ⊢
      cases hx : h.dirs[x]? with
      | none => rw [hx] at hr; simp at hr
      | some me =>
        rw [hx] at hr
        obtain ⟨me1, f1, _, _, _, f5⟩ := he.2.2 x me hx
        rw [f1]
        simp only at hr ⊢
        cases hs : strchrSlash q with
        | some ts =>
          obtain ⟨t, sub⟩ := ts
          rw [hs] at hr
          simp only at hr ⊢
          cases hfind : mapFind me._subdirs t with
          | none => rw [hfind] at hr; simp at hr
          | some child =>
            rw [hfind] at hr
            rw [f5 t child hfind]
            exact ih _ _ _ _ _ he hr
        | none =>
          rw [hs] at hr
          simp only at hr ⊢
          cases hfind : mapFind me._subdirs q with
          | none => rw [hfind] at hr; simp at hr
          | some child =>
            rw [hfind] at hr
            rw [f5 q child hfind]
            exact hr

theorem getFileLoop_mono (n : Nat) : ∀ (h h1 : Heap) (x : Nat) (comp rest : CStr) (f : Nat),
    h.extendedBy h1 → DirBase.getFileLoop n h x comp rest = some f →
    DirBase.getFileLoop n h1 x comp rest = some f := by
  induction n with
  | zero =>
    intro h h1 x comp rest f _ hr
    simp [DirBase.getFileLoop] at hr
  | succ n ih =>
    intro h h1 x comp rest f he hr
    unfold DirBase.getFileLoop at hr ⊢
    cases hsub : h.subdir x comp with
    | none => rw [hsub] at hr; cases hr
    | some next =>
      rw [hsub] at hr
      rw [extendedBy_subdir he x comp next hsub]
      simp only at hr ⊢
      cases hs : strchrSlash (skipDotSlash rest) with
      | none =>
        rw [hs] at hr
        exact extendedBy_getFileByName he _ _ _ hr
      | some tr =>
        obtain ⟨c1, r1⟩ := tr
        rw [hs] at hr
        exact ih _ _ _ _ _ _ he hr

theorem getFile_mono {h h1 : Heap} (he : h.extendedBy h1) (x : Nat) (q : CStr) (f : Nat)
    (hr : (DirBase.getFile h x q).2 = some f) : DirBase.getFile h1 x q = (h1, some f) := by
  unfold DirBase.getFile at hr ⊢
  cases hs : strchrSlash (skipDotSlash q) with
  | none =>
    rw [hs] at hr
    simp only at hr ⊢
    rw [extendedBy_getFileByName he _ _ _ hr]
  | some tr =>
    obtain ⟨c1, r1⟩ := tr
    rw [hs] at hr
    simp only at hr ⊢
    rw [getFileLoop_mono _ _ _ _ _ _ _ he hr]

/-- C19: create-on-demand only adds directories. After `d.getDir(p, true)`, every
`getDir(q, false)` that returned a node before returns the same node, every `getFile` that
found a file before finds the same file, and the child-file map of every directory that
existed before is as it was. -/
theorem C19_create_on_demand_only_adds (h : Heap) (d : Nat) (p : CStr) :
    (∀ x q n, (DirBase.getDir h x q false).2 = some n →
      DirBase.getDir (DirBase.getDir h d p true).1 x q false
        = ((DirBase.getDir h d p true).1, some n)) ∧
    (∀ x q f, (DirBase.getFile h x q).2 = some f →
      DirBase.getFile (DirBase.getDir h d p true).1 x q
        = ((DirBase.getDir h d p true).1, some f)) ∧
    (∀ (a : Nat) (me : DirObj), h.dirs[a]? = some me →
      ∃ me1, (DirBase.getDir h d p true).1.dirs[a]? = some me1 ∧ me1._files = me._files) := by
  have he := getDir_extendedBy h d p true
  refine ⟨?_, ?_, ?_⟩
  · intro x q n hr
    have h2 := getDirFuel_false_mono _ _ _ x q n he hr
    have h1 := getDirFuel_false_heap (q.length + 1) (DirBase.getDir h d p true).1 x q
    exact Prod.ext h1 h2
  · intro x q f hr
    exact getFile_mono he x q f hr
  · intro a me ha
    obtain ⟨me1, f1, _, _, f4, _⟩ := he.2.2 a me ha
    exact ⟨me1, f1, f4⟩

/-- C19 at a concrete input: creating `a/c/d` in `smallTree` keeps the result of looking up
`a/b` from the root. -/
theorem C19_create_on_demand_only_adds_witness :
    DirBase.getDir (DirBase.getDir smallTree 0 "a/c/d".toList true).1 0 "a/b".toList false
      = ((DirBase.getDir smallTree 0 "a/c/d".toList true).1, some 2) :=
  (C19_create_on_demand_only_adds smallTree 0 "a/c/d".toList).1 0 "a/b".toList 2 (by decide)

theorem GetDir_nocreate (T : Tools) (s : VFSHelper) (dn : CStr) :
    ∃ r, VFSHelper.GetDir T s dn false = Outcome.ret (s, r) := by
  obtain ⟨heap, merged, vlist, loaders, calls⟩ := s
  unfold VFSHelper.GetDir
  cases merged with
  | none => exact ⟨none, rfl⟩
  | some m =>
    simp only
    by_cases hfix : T.FixPath dn = []
    · simp only [hfix, if_true]
      exact ⟨some m, rfl⟩
    · simp only [hfix, if_false]
      have hheap : (DirBase.getDir heap m (T.FixPath dn) false).1 = heap :=
        getDirFuel_false_heap _ _ _ _
      cases hg : DirBase.getDir heap m (T.FixPath dn) false with
      | mk h1 r =>
        rw [hg] at hheap
        simp only at hheap
        subst hheap
        cases r with
        | none => exact ⟨none, by simp⟩
        | some vd => exact ⟨some vd, rfl⟩

/-- C20: mounting a missing source fails atomically. When `GetDir(src, false)` gives no
directory, `Mount(src, dest)` returns false and the whole state (mount list, tree, loaders)
is as before; `AddVFSDir` with a null directory does the same. -/
theorem C20_mount_missing_source_fails_atomically (T : Tools) (s : VFSHelper) (src dest : CStr)
    (hmiss : (VFSHelper.GetDir T s src false).val?.map (fun r => r.2) = some none) :
    VFSHelper.Mount T s src dest = Outcome.ret (s, false) ∧
    ∀ subdir, VFSHelper.AddVFSDir T s none subdir = Outcome.ret (s, false) := by
  obtain ⟨r, hr⟩ := GetDir_nocreate T s src
  rw [hr] at hmiss
  simp only [Outcome.val?, Option.map_some', Option.some.injEq] at hmiss
  subst hmiss
  constructor
  · unfold VFSHelper.Mount
    rw [hr]
    rfl
  · intro subdir
    rfl

/-- C20 at a concrete input: `mountState` has no directory `nowhere`. -/
theorem C20_mount_missing_source_fails_atomically_witness :
    VFSHelper.Mount releaseTools mountState "nowhere".toList "assets".toList
      = Outcome.ret (mountState, false) :=
  (C20_mount_missing_source_fails_atomically releaseTools mountState "nowhere".toList
    "assets".toList (by decide)).1

theorem getDirBounded_eq (n : Nat) : ∀ (h : Heap) (d : Nat) (p : CStr) (fc : Bool),
    p.length < n → DirBase.getDirBounded n h d p fc = some (DirBase.getDirFuel n h d p fc) := by
  induction n with
  | zero => intro h d p fc hn; omega
  | succ n ih =>
    intro h d p fc hn
    unfold DirBase.getDirBounded DirBase.getDirFuel
    by_cases hself : isSelfPath p = true
    · simp only [hself, if_true]
    · simp only [hself, if_false]
      cases hx : h.dirs[d]? with
      | none => rfl
      | some me =>
        simp only
        cases hs : strchrSlash p with
        | some ts =>
          obtain ⟨t, sub⟩ := ts
          have hl := strchrSlash_length hs
          simp only
          cases hfind : mapFind me._subdirs t with
          | some child => exact ih _ _ _ _ (by omega)
          | none =>
            cases fc with
            | true => exact ih _ _ _ _ (by omega)
            | false => rfl
        | none =>
          simp only
          cases hfind : mapFind me._subdirs p with
          | some child => rfl
          | none =>
            cases fc with
            | true => rfl
            | false => rfl

theorem getFileLoopBounded_eq (n : Nat) : ∀ (h : Heap) (d : Nat) (comp rest : CStr),
    rest.length < n →
    DirBase.getFileLoopBounded n h d comp rest = some (DirBase.getFileLoop n h d comp rest) := by
  induction n with
  | zero => intro h d comp rest hn; omega
  | succ n ih =>
    intro h d comp rest hn
    unfold DirBase.getFileLoopBounded DirBase.getFileLoop
    cases hsub : h.subdir d comp with
    | none => rfl
    | some next =>
      simp only
      cases hs : strchrSlash (skipDotSlash rest) with
      | none => rfl
      | some tr =>
        obtain ⟨c1, r1⟩ := tr
        have hl := strchrSlash_length hs
        have hk := skipDotSlash_length_le _ rest (Nat.le_refl _)
        exact ih _ _ _ _ (by omega)

/-- C17: path resolution terminates. A recursive call of `DirBase::getDir` is made on the
text after the first slash, a strictly shorter suffix of the path, and with any depth bound
above the path length the recursion ends with the result of `getDir`. An iteration of the
`DirBase::getFile` loop goes on with a strictly shorter rest, and with any iteration bound
above the length of the rest the loop ends with its result. -/
theorem C17_path_resolution_terminates :
    (∀ (p t sub : CStr), strchrSlash p = some (t, sub) →
      p = t ++ '/' :: sub ∧ sub.length < p.length) ∧
    (∀ (n : Nat) (h : Heap) (d : Nat) (p : CStr) (fc : Bool), p.length < n →
      DirBase.getDirBounded n h d p fc = some (DirBase.getDir h d p fc)) ∧
    (∀ (rest c1 r1 : CStr), strchrSlash (skipDotSlash rest) = some (c1, r1) →
      r1.length < rest.length) ∧
    (∀ (n : Nat) (h : Heap) (d : Nat) (comp rest : CStr), rest.length < n →
      DirBase.getFileLoopBounded n h d comp rest
        = some (DirBase.getFileLoop (rest.length + 1) h d comp rest)) := by
  refine ⟨?_, ?_, ?_, ?_⟩
  · intro p t sub hs
    exact ⟨(strchrSlash_some hs).1, strchrSlash_length hs⟩
  · intro n h d p fc hn
    rw [getDirBounded_eq n h d p fc hn]
    unfold DirBase.getDir
    rw [getDirFuel_stable n (p.length + 1) h d p fc hn (by omega)]
  · intro rest c1 r1 hs
    have hl := strchrSlash_length hs
    have hk := skipDotSlash_length_le _ rest (Nat.le_refl _)
    omega
  · intro n h d comp rest hn
    rw [getFileLoopBounded_eq n h d comp rest hn]
    rw [getFileLoop_stable n (rest.length + 1) h d comp rest hn (by omega)]

/-- C17 at a concrete input: the path `a/c/d` has length 5; the bound 6 is enough to create
it in `smallTree`. -/
theorem C17_path_resolution_terminates_witness :
    DirBase.getDirBounded 6 smallTree 0 "a/c/d".toList true
      = some (DirBase.getDir smallTree 0 "a/c/d".toList true) :=
  C17_path_resolution_terminates.2.1 6 smallTree 0 "a/c/d".toList true (by decide)

theorem components_of_strchr_some {p t sub : CStr} (hs : strchrSlash p = some (t, sub)) :
    components p = t :: components sub := by
  induction p generalizing t with
  | nil => simp [strchrSlash] at hs
  | cons c cs ih =>
    unfold strchrSlash at hs
    rw [components]
    split at hs
    · next hc =>
      simp only [Option.some.injEq, Prod.mk.injEq] at hs
      obtain ⟨rfl, rfl⟩ := hs
      simp [hc]
    · next hc =>
      split at hs
      · cases hs
      · next t0 sub0 h0 =>
        simp only [Option.some.injEq, Prod.mk.injEq] at hs
        obtain ⟨rfl, rfl⟩ := hs
        rw [ih h0]
        simp [hc]

theorem components_of_strchr_none {p : CStr} (hs : strchrSlash p = none) :
    components p = [p] := by
  induction p with
  | nil => rfl
  | cons c cs ih =>
    unfold strchrSlash at hs
    rw [components]
    split at hs
    · cases hs
    · next hc =>
      split at hs
      · next h0 =>
        rw [ih h0]
        simp [hc]
      · cases hs

theorem createLink_getElem_new (h : Heap) (d : Nat) (me : DirObj) (nm : CStr)
    (hd : h.dirs[d]? = some me) :
    (((h.createNew nm).1).linkSubdir d h.dirs.length).dirs[h.dirs.length]?
      = some (DirObj.create nm) := by
  have hlt := getElem?_lt hd
  rw [createLink_eq h d me nm hd]
  simp only
  rw [List.getElem?_set_ne (by omega)]
  simp

theorem createdUnder_first (h h1 : Heap) (d : Nat) (me : DirObj) (t p : CStr)
    (hd : h.dirs[d]? = some me) (ht : '/' ∉ t) (hmem : t ∈ components p)
    (he : (((h.createNew (if me.fullname.length ≠ 0 then me.fullname ++ '/' :: t else t)).1).linkSubdir
      d h.dirs.length).extendedBy h1) :
    createdUnder h1 p h.dirs.length := by
  have hbn := baseName_newname me.fullname t ht
  have hg := createLink_getElem_self h d me
    (if me.fullname.length ≠ 0 then me.fullname ++ '/' :: t else t) hd
  have hn := createLink_getElem_new h d me
    (if me.fullname.length ≠ 0 then me.fullname ++ '/' :: t else t) hd
  obtain ⟨q1, a1, a2, _, _, a5⟩ := he.2.2 d _ hg
  obtain ⟨n1, b1, b2, b3, _, _⟩ := he.2.2 h.dirs.length _ hn
  refine ⟨d, t, q1, n1, ht, hmem, a1, b1, ?_, ?_, ?_⟩
  · apply a5
    simp only
    rw [hbn]
    exact mapFind_assign_self _ _ _
  · rw [b3]
    exact hbn
  · rw [b2, a2]
    rfl

theorem getDirFuel_created (n : Nat) : ∀ (h : Heap) (d : Nat) (p : CStr) (a : Nat),
    h.dirs.length ≤ a → a < (DirBase.getDirFuel n h d p true).1.dirs.length →
    createdUnder (DirBase.getDirFuel n h d p true).1 p a := by
  induction n with
  | zero =>
    intro h d p a h1 h2
    simp only [DirBase.getDirFuel] at h2
    omega
  | succ n ih =>
    intro h d p a h1 h2
    unfold DirBase.getDirFuel at h2 ⊢
    by_cases hself : isSelfPath p = true
    · simp only [hself, if_true] at h2
      omega
    · replace hself : isSelfPath p = false := by simpa using hself
      simp only [hself, Bool.false_eq_true, if_false] at h2 ⊢
      cases hx : h.dirs[d]? with
      | none =>
        rw [hx] at h2
        simp only at h2
        omega
      | some me =>
        rw [hx] at h2
        simp only at h2 ⊢
        cases hs : strchrSlash p with
        | some ts =>
          obtain ⟨t, sub⟩ := ts
          rw [hs] at h2
          simp only at h2 ⊢
          have hcomp := components_of_strchr_some hs
          have htno := (strchrSlash_some hs).2
          cases hfind : mapFind me._subdirs t with
          | some child =>
            rw [hfind] at h2
            simp only at h2 ⊢
            obtain ⟨q, c, qobj, aobj, c1, c2, c3⟩ := ih h child sub a h1 h2
            exact ⟨q, c, qobj, aobj, c1, by rw [hcomp]; exact List.mem_cons_of_mem _ c2, c3⟩
          | none =>
            rw [hfind] at h2
            simp only [if_true] at h2 ⊢
            have hl := createLink_length h d me
              (if me.fullname.length ≠ 0 then me.fullname ++ '/' :: t else t) hx
            by_cases hfirst : a = h.dirs.length
            · subst hfirst
              exact createdUnder_first h _ d me t p hx htno (by rw [hcomp]; exact List.mem_cons_self _ _)
                (getDirFuel_extendedBy _ _ _ _ _)
            · obtain ⟨q, c, qobj, aobj, c1, c2, c3⟩ :=
                ih _ h.dirs.length sub a (by rw [hl]; omega) h2
              exact ⟨q, c, qobj, aobj, c1, by rw [hcomp]; exact List.mem_cons_of_mem _ c2, c3⟩
        | none =>
          rw [hs] at h2
          simp only at h2 ⊢
          have hcomp := components_of_strchr_none hs
          have htno := strchrSlash_none.mp hs
          cases hfind : mapFind me._subdirs p with
          | some child =>
            rw [hfind] at h2
            simp only at h2
            omega
          | none =>
            rw [hfind] at h2
            simp only [if_true] at h2 ⊢
            have hl := createLink_length h d me
              (if me.fullname.length ≠ 0 then me.fullname ++ '/' :: p else p) hx
            have hfirst : a = h.dirs.length := by rw [hl] at h2; omega
            subst hfirst
            exact createdUnder_first h _ d me p p hx htno (by rw [hcomp]; exact List.mem_singleton_self _)
              (extendedBy_refl _)

/-- C15: full path of directories created on demand. Every directory that
`d.getDir(p, true)` allocates (an address from the old heap size on) sits in the
child-directory map of some directory `q` under a key `c` that is a component of `p`, has the
name `c`, and has the full path of `q` followed by a slash and `c`, or just `c` when the
full path of `q` is empty; this covers every directory created along the path. -/
theorem C15_created_directories_full_path (h : Heap) (d : Nat) (p : CStr) (a : Nat)
    (hnew : h.dirs.length ≤ a) (ha : a < (DirBase.getDir h d p true).1.dirs.length) :
    createdUnder (DirBase.getDir h d p true).1 p a :=
  getDirFuel_created _ h d p a hnew ha

/-- C15 at a concrete input: creating `a/c/d` in `smallTree` (3 directories) allocates the
directories 3 and 4; directory 4 is `d`, created under `c`. -/
theorem C15_created_directories_full_path_witness :
    createdUnder (DirBase.getDir smallTree 0 "a/c/d".toList true).1 "a/c/d".toList 4 :=
  C15_created_directories_full_path smallTree 0 "a/c/d".toList 4 (by decide) (by decide)

theorem mapFind_some_iff_mem_keys (m : List (CStr × Nat)) (k : CStr) :
    (∃ v, mapFind m k = some v) ↔ k ∈ m.map Prod.fst := by
  induction m with
  | nil => simp [mapFind]
  | cons kv rest ih =>
    obtain ⟨k0, v0⟩ := kv
    unfold mapFind
    by_cases hk : k = k0
    · simp [hk]
    · simp only [hk, if_false, List.map_cons, List.mem_cons, false_or]
      exact ih

theorem putDir_getElem_self (h : Heap) (self : Nat) (me me1 : DirObj)
    (hme : h.dirs[self]? = some me) : (h.putDir self me1).dirs[self]? = some me1 := by
  unfold Heap.putDir
  simp only
  rw [List.getElem?_set_self (getElem?_lt hme)]

theorem putDir_getElem_ne (h : Heap) (self i : Nat) (me1 : DirObj) (hi : i ≠ self) :
    (h.putDir self me1).dirs[i]? = h.dirs[i]? := by
  unfold Heap.putDir
  simp only
  rw [List.getElem?_set_ne (fun e => hi e.symm)]

theorem fullname_eq_of_getElem {h : Heap} {self : Nat} {me : DirObj}
    (hme : h.dirs[self]? = some me) : h.fullname self = me.fullname := by
  unfold Heap.fullname
  rw [hme]

theorem loadFiles_spec (self : Nat) (L : List CStr) : ∀ (h : Heap) (me : DirObj),
    h.dirs[self]? = some me → (∀ x ∈ L, '/' ∉ x) →
    ∃ me1, (DiskDir.loadFiles self L h).dirs[self]? = some me1 ∧
      me1.fullname = me.fullname ∧ me1.name = me.name ∧ me1._subdirs = me._subdirs ∧
      (DiskDir.loadFiles self L h).dirs.length = h.dirs.length ∧
      (∀ (i : Nat), i ≠ self → (DiskDir.loadFiles self L h).dirs[i]? = h.dirs[i]?) ∧
      (∀ (i : Nat) (fo : FileObj), h.files[i]? = some fo →
        (DiskDir.loadFiles self L h).files[i]? = some fo) ∧
      (∀ k, k ∉ L → mapFind me1._files k = mapFind me._files k) ∧
      (∀ k, k ∈ L → ∃ fp, mapFind me1._files k = some fp ∧ h.files.length ≤ fp ∧
        (DiskDir.loadFiles self L h).files[fp]? = some ⟨me.fullname ++ '/' :: k, k⟩) := by
  induction L with
  | nil =>
    intro h me hme _
    exact ⟨me, hme, rfl, rfl, rfl, rfl, fun _ _ => rfl, fun _ _ hf => hf, fun _ _ => rfl,
      fun k hk => by cases hk⟩
  | cons it rest ih =>
    intro h me hme hL
    have hit : '/' ∉ it := hL it (List.mem_cons_self _ _)
    have hrest : ∀ x ∈ rest, '/' ∉ x := fun x hx => hL x (List.mem_cons_of_mem _ hx)
    have hfull := fullname_eq_of_getElem hme
    have hname : (FileObj.create (me.fullname ++ '/' :: it)).name = it :=
      baseName_append_slash _ _ hit
    have hstep : Heap.linkFile
        { h with files := h.files ++ [FileObj.create (h.fullname self ++ '/' :: it)] } self
          h.files.length
        = Heap.putDir { h with files := h.files ++ [FileObj.create (me.fullname ++ '/' :: it)] } self
            { me with _files := mapAssign me._files it h.files.length } := by
      unfold Heap.linkFile
      simp only [hme, hfull, List.getElem?_concat_length, hname]
    have hme1 := putDir_getElem_self
      { h with files := h.files ++ [FileObj.create (me.fullname ++ '/' :: it)] } self me
      { me with _files := mapAssign me._files it h.files.length } hme
    obtain ⟨me2, a1, a2, a3, a4, a5, a6, a7, a8, a9⟩ := ih _ _ hme1 hrest
    have hunf : DiskDir.loadFiles self (it :: rest) h
        = DiskDir.loadFiles self rest
            (Heap.putDir { h with files := h.files ++ [FileObj.create (me.fullname ++ '/' :: it)] }
              self { me with _files := mapAssign me._files it h.files.length }) := by
      rw [DiskDir.loadFiles, hstep]
    rw [hunf]
    refine ⟨me2, a1, a2, a3, a4, ?_, ?_, ?_, ?_, ?_⟩
    · rw [a5]; simp [Heap.putDir]
    · intro i hi
      rw [a6 i hi, putDir_getElem_ne _ _ _ _ hi]
    · intro i fo hf
      apply a7
      have hlt := getElem?_lt hf
      simp only [Heap.putDir]
      rw [List.getElem?_append_left hlt]
      exact hf
    · intro k hk
      simp only [List.mem_cons, not_or] at hk
      rw [a8 k hk.2]
      exact mapFind_assign_ne _ _ _ _ hk.1
    · intro k hk
      by_cases hkr : k ∈ rest
      · obtain ⟨fp, b1, b2, b3⟩ := a9 k hkr
        refine ⟨fp, b1, ?_, b3⟩
        simp only [Heap.putDir, List.length_append, List.length_singleton] at b2
        omega
      · have hki : k = it := by
          rcases List.mem_cons.mp hk with h1 | h1
          · exact h1
          · exact absurd h1 hkr
        subst hki
        refine ⟨h.files.length, ?_, Nat.le_refl _, ?_⟩
        · rw [a8 k hkr]
          exact mapFind_assign_self _ _ _
        · apply a7
          have hobj : FileObj.create (me.fullname ++ '/' :: k)
              = ⟨me.fullname ++ '/' :: k, k⟩ := by
            unfold FileObj.create
            rw [baseName_append_slash _ _ hit]
          simp only [Heap.putDir, List.getElem?_concat_length, hobj]

theorem loadDirs_spec (self : Nat) (L : List CStr) : ∀ (h : Heap) (me : DirObj),
    h.dirs[self]? = some me → (∀ x ∈ L, '/' ∉ x) →
    ∃ me1, (DiskDir.loadDirs self L h).dirs[self]? = some me1 ∧
      me1.fullname = me.fullname ∧ me1.name = me.name ∧ me1._files = me._files ∧
      (DiskDir.loadDirs self L h).files = h.files ∧
      (∀ (i : Nat) (dobj : DirObj), i ≠ self → h.dirs[i]? = some dobj →
        (DiskDir.loadDirs self L h).dirs[i]? = some dobj) ∧
      (∀ k, k ∉ L → mapFind me1._subdirs k = mapFind me._subdirs k) ∧
      (∀ k, k ∈ L → ∃ dp, mapFind me1._subdirs k = some dp ∧ h.dirs.length ≤ dp ∧
        (DiskDir.loadDirs self L h).dirs[dp]? = some (DirObj.create (me.fullname ++ '/' :: k))) := by
  induction L with
  | nil =>
    intro h me hme _
    exact ⟨me, hme, rfl, rfl, rfl, rfl, fun _ _ _ hf => hf, fun _ _ => rfl,
      fun k hk => by cases hk⟩
  | cons it rest ih =>
    intro h me hme hL
    have hit : '/' ∉ it := hL it (List.mem_cons_self _ _)
    have hrest : ∀ x ∈ rest, '/' ∉ x := fun x hx => hL x (List.mem_cons_of_mem _ hx)
    have hfull := fullname_eq_of_getElem hme
    have hlt := getElem?_lt hme
    have hbn : baseName (me.fullname ++ '/' :: it) = it := baseName_append_slash _ _ hit
    have hself := createLink_getElem_self h self me (me.fullname ++ '/' :: it) hme
    have hnew := createLink_getElem_new h self me (me.fullname ++ '/' :: it) hme
    have hlen := createLink_length h self me (me.fullname ++ '/' :: it) hme
    have heq := createLink_eq h self me (me.fullname ++ '/' :: it) hme
    rw [hbn] at hself
    obtain ⟨me2, a1, a2, a3, a4, a5, a6, a7, a8⟩ := ih _ _ hself hrest
    have hunf : DiskDir.loadDirs self (it :: rest) h
        = DiskDir.loadDirs self rest
            (((h.createNew (me.fullname ++ '/' :: it)).1).linkSubdir self h.dirs.length) := by
      rw [DiskDir.loadDirs, hfull]
    rw [hunf]
    refine ⟨me2, a1, a2, a3, a4, ?_, ?_, ?_, ?_⟩
    · rw [a5, heq]
    · intro i dobj hi hd
      apply a6 i dobj hi
      rw [heq]
      simp only
      rw [List.getElem?_set_ne (fun e => hi e.symm), List.getElem?_append_left (getElem?_lt hd)]
      exact hd
    · intro k hk
      simp only [List.mem_cons, not_or] at hk
      rw [a7 k hk.2]
      exact mapFind_assign_ne _ _ _ _ hk.1
    · intro k hk
      by_cases hkr : k ∈ rest
      · obtain ⟨dp, b1, b2, b3⟩ := a8 k hkr
        refine ⟨dp, b1, ?_, b3⟩
        rw [hlen] at b2
        omega
      · have hki : k = it := by
          rcases List.mem_cons.mp hk with h1 | h1
          · exact h1
          · exact absurd h1 hkr
        subst hki
        refine ⟨h.dirs.length, ?_, Nat.le_refl _, ?_⟩
        · rw [a7 k hkr]
          exact mapFind_assign_self _ _ _
        · exact a6 h.dirs.length _ (by omega) hnew

/-- What `DiskDir::load` leaves in the directory `self` (full name `full`), given the two
listings: the lookup of a listed name gives a newly allocated object whose full path is
`full`, a slash and the name; the lookup of any other name gives nothing. -/
theorem load_spec (E : Disk) (h : Heap) (self : Nat) (me : DirObj)
    (hme : h.dirs[self]? = some me)
    (hfl : ∀ x ∈ E.GetFileList me.fullname, '/' ∉ x)
    (hdl : ∀ x ∈ E.GetDirList me.fullname, '/' ∉ x) :
    ∃ me1, (DiskDir.load E h self).dirs[self]? = some me1 ∧ me1.fullname = me.fullname ∧
      (∀ k, k ∉ E.GetFileList me.fullname → mapFind me1._files k = none) ∧
      (∀ k, k ∈ E.GetFileList me.fullname → ∃ fp, mapFind me1._files k = some fp ∧
        h.files.length ≤ fp ∧
        (DiskDir.load E h self).files[fp]? = some ⟨me.fullname ++ '/' :: k, k⟩) ∧
      (∀ k, k ∉ E.GetDirList me.fullname → mapFind me1._subdirs k = none) ∧
      (∀ k, k ∈ E.GetDirList me.fullname → ∃ dp, mapFind me1._subdirs k = some dp ∧
        h.dirs.length ≤ dp ∧
        (DiskDir.load E h self).dirs[dp]? = some (DirObj.create (me.fullname ++ '/' :: k))) := by
  have h0 := putDir_getElem_self h self me { me with _files := [], _subdirs := [] } hme
  obtain ⟨m1, a1, a2, a3, a4, a5, a6, a7, a8, a9⟩ :=
    loadFiles_spec self (E.GetFileList me.fullname) _ _ h0 hfl
  obtain ⟨m2, b1, b2, b3, b4, b5, b6, b7, b8⟩ :=
    loadDirs_spec self (E.GetDirList me.fullname) _ m1 a1 hdl
  have hunf : DiskDir.load E h self
      = DiskDir.loadDirs self (E.GetDirList me.fullname)
          (DiskDir.loadFiles self (E.GetFileList me.fullname)
            (h.putDir self { me with _files := [], _subdirs := [] })) := by
    unfold DiskDir.load
    rw [hme]
  rw [hunf]
  refine ⟨m2, b1, by rw [b2, a2], ?_, ?_, ?_, ?_⟩
  · intro k hk
    rw [b4, a8 k hk]
    rfl
  · intro k hk
    obtain ⟨fp, c1, c2, c3⟩ := a9 k hk
    refine ⟨fp, by rw [b4]; exact c1, ?_, ?_⟩
    · simpa [Heap.putDir] using c2
    · rw [b5]
      exact c3
  · intro k hk
    rw [b7 k hk, a4]
    rfl
  · intro k hk
    simp only at a2
    rw [a2] at b8
    obtain ⟨dp, c1, c2, c3⟩ := b8 k hk
    refine ⟨dp, c1, ?_, c3⟩
    rw [a5] at c2
    simpa [Heap.putDir] using c2

/-- C11: `DiskDir::load` replaces the maps wholesale. For a live directory and listings
whose names hold no slash, after `load()` the key set of the child-file map is the set of
names given by `GetFileList` and the key set of the child-directory map is the set of names
given by `GetDirList`, whatever the maps held before; every entry points to an object
allocated by this call, whose full path is the full name of the directory, a slash and the
name. -/
theorem C11_DiskDir_load_replaces_maps (E : Disk) (h : Heap) (self : Nat) (me : DirObj)
    (hme : h.dirs[self]? = some me)
    (hfl : ∀ x ∈ E.GetFileList me.fullname, '/' ∉ x)
    (hdl : ∀ x ∈ E.GetDirList me.fullname, '/' ∉ x) :
    ∃ me1, (DiskDir.load E h self).dirs[self]? = some me1 ∧ me1.fullname = me.fullname ∧
      (∀ k, k ∈ me1._files.map Prod.fst ↔ k ∈ E.GetFileList me.fullname) ∧
      (∀ k, k ∈ me1._subdirs.map Prod.fst ↔ k ∈ E.GetDirList me.fullname) ∧
      (∀ k fp, mapFind me1._files k = some fp →
        h.files.length ≤ fp ∧ ∃ fo, (DiskDir.load E h self).files[fp]? = some fo ∧
          fo.fullname = me.fullname ++ '/' :: k) ∧
      (∀ k dp, mapFind me1._subdirs k = some dp →
        h.dirs.length ≤ dp ∧ ∃ dobj, (DiskDir.load E h self).dirs[dp]? = some dobj ∧
          dobj.fullname = me.fullname ++ '/' :: k) := by
  obtain ⟨me1, a1, a2, a3, a4, a5, a6⟩ := load_spec E h self me hme hfl hdl
  refine ⟨me1, a1, a2, ?_, ?_, ?_, ?_⟩
  · intro k
    rw [← mapFind_some_iff_mem_keys]
    constructor
    · rintro ⟨v, hv⟩
      by_contra hk
      rw [a3 k hk] at hv
      cases hv
    · intro hk
      obtain ⟨fp, c1, _⟩ := a4 k hk
      exact ⟨fp, c1⟩
  · intro k
    rw [← mapFind_some_iff_mem_keys]
    constructor
    · rintro ⟨v, hv⟩
      by_contra hk
      rw [a5 k hk] at hv
      cases hv
    · intro hk
      obtain ⟨dp, c1, _⟩ := a6 k hk
      exact ⟨dp, c1⟩
  · intro k fp hf
    have hk : k ∈ E.GetFileList me.fullname := by
      by_contra hk
      rw [a3 k hk] at hf
      cases hf
    obtain ⟨fp1, c1, c2, c3⟩ := a4 k hk
    rw [c1] at hf
    cases hf
    exact ⟨c2, _, c3, rfl⟩
  · intro k dp hf
    have hk : k ∈ E.GetDirList me.fullname := by
      by_contra hk
      rw [a5 k hk] at hf
      cases hf
    obtain ⟨dp1, c1, c2, c3⟩ := a6 k hk
    rw [c1] at hf
    cases hf
    exact ⟨c2, _, c3, rfl⟩

/-- C11 at a concrete input: loading `diskTree` from `smallDisk`. -/
theorem C11_DiskDir_load_replaces_maps_witness :
    ∃ me1, (DiskDir.load smallDisk diskTree 0).dirs[0]? = some me1 ∧
      (∀ k, k ∈ me1._files.map Prod.fst ↔ k ∈ ["b".toList, "a".toList]) ∧
      (∀ k, k ∈ me1._subdirs.map Prod.fst ↔ k ∈ ["y".toList, "x".toList]) :=
  match C11_DiskDir_load_replaces_maps smallDisk diskTree 0 (DirObj.create "d".toList) (by decide)
      (by decide) (by decide) with
  | ⟨me1, a1, _, a3, a4, _⟩ => ⟨me1, a1, a3, a4⟩

/-- C12 as stated fails: on the already-loaded directory of `grownTree`, to which
`getDir("new", true)` added the child `new`, the `load()` that `Dir::forEachFile` runs
before iterating clears the maps and enumerates again: the child `new` is gone and the file
entry `a.txt` points to a new object. -/
theorem C12_reload_changes_maps :
    grownTree.subdirsOf 0 = [("new".toList, 1)] ∧
    grownTree.filesOf 0 = [("a.txt".toList, 0)] ∧
    (Dir.forEachFile oneFileDisk grownTree 0 idleCallback () true 0).map
        (fun r => r.heap.subdirsOf 0) = some [] ∧
    (Dir.forEachFile oneFileDisk grownTree 0 idleCallback () true 0).map
        (fun r => r.heap.filesOf 0) = some [("a.txt".toList, 1)] ∧
    (Dir.forEachFile oneFileDisk grownTree 0 idleCallback () true 0).map
        (fun r => r.heap.subdirsOf 0) ≠ some (grownTree.subdirsOf 0) ∧
    (Dir.forEachFile oneFileDisk grownTree 0 idleCallback () true 0).map
        (fun r => r.heap.filesOf 0) ≠ some (grownTree.filesOf 0) := by
  decide

/-- C12 as amended: `load()` is a full reload. Run on any later state `h2` of a directory
that kept its full name, with the same listings (names without slash), it gives the same key
sets of the child-file map and of the child-directory map as the first load gave, and these
are the listed names: an entry added in between is kept only if its name is listed. Every
entry of the reloaded maps points to an object allocated by the reload (an address from the
size of `h2` on), whose full path is the full name of the directory, a slash and the key. -/
theorem C12_reload_gives_enumerated_key_sets (E : Disk) (h h2 : Heap) (self : Nat)
    (me me2 : DirObj) (hme : h.dirs[self]? = some me) (hme2 : h2.dirs[self]? = some me2)
    (hfull : me2.fullname = me.fullname)
    (hfl : ∀ x ∈ E.GetFileList me.fullname, '/' ∉ x)
    (hdl : ∀ x ∈ E.GetDirList me.fullname, '/' ∉ x) :
    ∃ m1 m2, (DiskDir.load E h self).dirs[self]? = some m1 ∧
      (DiskDir.load E h2 self).dirs[self]? = some m2 ∧
      (∀ k, k ∈ m2._files.map Prod.fst ↔ k ∈ m1._files.map Prod.fst) ∧
      (∀ k, k ∈ m2._subdirs.map Prod.fst ↔ k ∈ m1._subdirs.map Prod.fst) ∧
      (∀ k, k ∈ m2._files.map Prod.fst ↔ k ∈ E.GetFileList me.fullname) ∧
      (∀ k, k ∈ m2._subdirs.map Prod.fst ↔ k ∈ E.GetDirList me.fullname) ∧
      (∀ k fp, mapFind m2._files k = some fp →
        h2.files.length ≤ fp ∧ ∃ fo, (DiskDir.load E h2 self).files[fp]? = some fo ∧
          fo.fullname = me.fullname ++ '/' :: k) ∧
      (∀ k dp, mapFind m2._subdirs k = some dp →
        h2.dirs.length ≤ dp ∧ ∃ dobj, (DiskDir.load E h2 self).dirs[dp]? = some dobj ∧
          dobj.fullname = me.fullname ++ '/' :: k) := by
  obtain ⟨m1, a1, _, a3, a4, a5, a6⟩ := load_spec E h self me hme hfl hdl
  obtain ⟨m2, b1, _, b3, b4, b5, b6⟩ :=
    load_spec E h2 self me2 hme2 (by rw [hfull]; exact hfl) (by rw [hfull]; exact hdl)
  rw [hfull] at b3 b4 b5 b6
  have keyF : ∀ (m : DirObj),
      (∀ k, k ∉ E.GetFileList me.fullname → mapFind m._files k = none) →
      (∀ k, k ∈ E.GetFileList me.fullname → ∃ fp, mapFind m._files k = some fp) →
      ∀ k, k ∈ m._files.map Prod.fst ↔ k ∈ E.GetFileList me.fullname := by
    intro m c1 c2 k
    rw [← mapFind_some_iff_mem_keys]
    constructor
    · rintro ⟨v, hv⟩
      by_contra hk
      rw [c1 k hk] at hv
      cases hv
    · exact c2 k
  have keyD : ∀ (m : DirObj),
      (∀ k, k ∉ E.GetDirList me.fullname → mapFind m._subdirs k = none) →
      (∀ k, k ∈ E.GetDirList me.fullname → ∃ dp, mapFind m._subdirs k = some dp) →
      ∀ k, k ∈ m._subdirs.map Prod.fst ↔ k ∈ E.GetDirList me.fullname := by
    intro m c1 c2 k
    rw [← mapFind_some_iff_mem_keys]
    constructor
    · rintro ⟨v, hv⟩
      by_contra hk
      rw [c1 k hk] at hv
      cases hv
    · exact c2 k
  have f1 := keyF m1 a3 (fun k hk => (a4 k hk).imp fun _ hx => hx.1)
  have f2 := keyF m2 b3 (fun k hk => (b4 k hk).imp fun _ hx => hx.1)
  have d1 := keyD m1 a5 (fun k hk => (a6 k hk).imp fun _ hx => hx.1)
  have d2 := keyD m2 b5 (fun k hk => (b6 k hk).imp fun _ hx => hx.1)
  refine ⟨m1, m2, a1, b1, fun k => (f2 k).trans (f1 k).symm, fun k => (d2 k).trans (d1 k).symm,
    f2, d2, ?_, ?_⟩
  · intro k fp hf
    have hk : k ∈ E.GetFileList me.fullname := by
      by_contra hk
      rw [b3 k hk] at hf
      cases hf
    obtain ⟨fp1, c1, c2, c3⟩ := b4 k hk
    rw [c1] at hf
    cases hf
    exact ⟨c2, _, c3, rfl⟩
  · intro k dp hf
    have hk : k ∈ E.GetDirList me.fullname := by
      by_contra hk
      rw [b5 k hk] at hf
      cases hf
    obtain ⟨dp1, c1, c2, c3⟩ := b6 k hk
    rw [c1] at hf
    cases hf
    exact ⟨c2, _, c3, rfl⟩

/-- C12 as amended, at a concrete input: the reload of `grownTree` has the keys of the first
load of `diskTree`, and its file entries point behind the one file object of `grownTree`. -/
theorem C12_reload_gives_enumerated_key_sets_witness :
    ∃ m1 m2, (DiskDir.load oneFileDisk diskTree 0).dirs[0]? = some m1 ∧
      (DiskDir.load oneFileDisk grownTree 0).dirs[0]? = some m2 ∧
      (∀ k, k ∈ m2._files.map Prod.fst ↔ k ∈ m1._files.map Prod.fst) ∧
      (∀ k, k ∈ m2._subdirs.map Prod.fst ↔ k ∈ m1._subdirs.map Prod.fst) ∧
      (∀ k fp, mapFind m2._files k = some fp →
        1 ≤ fp ∧ ∃ fo, (DiskDir.load oneFileDisk grownTree 0).files[fp]? = some fo ∧
          fo.fullname = "d".toList ++ '/' :: k) :=
  match C12_reload_gives_enumerated_key_sets oneFileDisk diskTree grownTree 0
      (DirObj.create "d".toList)
      { fullname := "d".toList, name := "d".toList, _subdirs := [("new".toList, 1)],
        _files := [("a.txt".toList, 0)] }
      (by decide) (by decide) (by decide) (by decide) (by decide) with
  | ⟨m1, m2, a1, a2, a3, a4, _, _, a7, _⟩ => ⟨m1, m2, a1, a2, a3, a4, a7⟩

theorem strLess_irrefl (a : CStr) : strLess a a = false := by
  induction a with
  | nil => rfl
  | cons x xs ih => simp [strLess, ih]

theorem strLess_asymm (a b : CStr) (hab : strLess a b = true) : strLess b a = false := by
  induction a generalizing b with
  | nil =>
    cases b with
    | nil => rfl
    | cons y ys => rfl
  | cons x xs ih =>
    cases b with
    | nil => simp [strLess] at hab
    | cons y ys =>
      unfold strLess at hab ⊢
      by_cases h1 : x.toNat < y.toNat
      · have h2 : ¬ y.toNat < x.toNat := by omega
        simp [h1, h2]
      · by_cases h2 : y.toNat < x.toNat
        · simp [h1, h2] at hab
        · simp only [h1, h2, if_false] at hab ⊢
          exact ih ys hab

theorem iterCopy_calls {U : Type} (f : Heap → Nat → U → Heap × U) (m : List (CStr × Nat)) :
    ∀ (r : EnumResult U), (iterCopy f m r).calls = r.calls ++ m.map Prod.snd := by
  induction m with
  | nil => intro r; simp [iterCopy]
  | cons kv rest ih =>
    intro r
    obtain ⟨k, p⟩ := kv
    rw [iterCopy, ih]
    simp [EnumResult.invoke]

theorem mapNext_sorted (pre suffix : List (CStr × Nat)) (hs : mapSorted (pre ++ suffix)) :
    mapNext (pre ++ suffix) (pre.getLast?.map Prod.fst) = suffix.head? := by
  rcases List.eq_nil_or_concat pre with rfl | ⟨init, kv, rfl⟩
  · rfl
  · obtain ⟨k, v⟩ := kv
    rw [List.concat_eq_append] at hs ⊢
    have hlast : (init ++ [(k, v)]).getLast?.map Prod.fst = some k := by simp
    rw [hlast]
    unfold mapNext
    simp only
    unfold mapSorted at hs
    rw [List.pairwise_append] at hs
    obtain ⟨hpre, _, hcross⟩ := hs
    rw [List.pairwise_append] at hpre
    obtain ⟨_, _, hinit⟩ := hpre
    have hnone : (init ++ [(k, v)]).find? (fun kv => strLess k kv.1) = none := by
      rw [List.find?_eq_none]
      intro x hx
      rcases List.mem_append.mp hx with h1 | h1
      · have := hinit x h1 (k, v) (by simp)
        simp [strLess_asymm _ _ this]
      · rw [List.mem_singleton] at h1
        subst h1
        simp [strLess_irrefl]
    rw [List.find?_append, hnone]
    cases suffix with
    | nil => rfl
    | cons y ys =>
      have := hcross (k, v) (by simp) y (by simp)
      simp only at this
      simp [List.find?, this]

theorem iterCopy_state {U : Type} (f : Heap → Nat → U → Heap × U) (m : List (CStr × Nat)) :
    ∀ (r : EnumResult U), ((iterCopy f m r).heap, (iterCopy f m r).user)
      = (m.map Prod.snd).foldl (fun hu ptr => f hu.1 ptr hu.2) (r.heap, r.user) := by
  induction m with
  | nil => intro r; rfl
  | cons kv rest ih =>
    intro r
    obtain ⟨k, p⟩ := kv
    rw [iterCopy, ih]
    rfl

theorem iterLive_eq_iterCopy {U : Type} (live : Heap → List (CStr × Nat))
    (f : Heap → Nat → U → Heap × U) (hf : ∀ hp p u, (f hp p u).1 = hp)
    (m : List (CStr × Nat)) (hs : mapSorted m) :
    ∀ (suffix pre : List (CStr × Nat)) (r : EnumResult U) (fuel : Nat),
      m = pre ++ suffix → live r.heap = m → suffix.length < fuel →
      iterLive live f fuel (pre.getLast?.map Prod.fst) r = some (iterCopy f suffix r) := by
  intro suffix
  induction suffix with
  | nil =>
    intro pre r fuel hm hlive hfuel
    cases fuel with
    | zero => simp at hfuel
    | succ fuel =>
      unfold iterLive
      rw [hlive, hm, mapNext_sorted pre [] (hm ▸ hs)]
      rfl
  | cons kv rest ih =>
    intro pre r fuel hm hlive hfuel
    obtain ⟨k, p⟩ := kv
    cases fuel with
    | zero => simp at hfuel
    | succ fuel =>
      unfold iterLive
      rw [hlive, hm, mapNext_sorted pre ((k, p) :: rest) (hm ▸ hs)]
      simp only [List.head?_cons]
      have hm1 : m = (pre ++ [(k, p)]) ++ rest := by rw [hm]; simp
      have hlast : (pre ++ [(k, p)]).getLast?.map Prod.fst = some k := by simp
      have hheap : (r.invoke f p).heap = r.heap := hf _ _ _
      have := ih (pre ++ [(k, p)]) (r.invoke f p) fuel hm1 (by rw [hheap]; exact hlive)
        (by simp at hfuel; omega)
      rw [hlast] at this
      rw [this]
      rfl

/-- C18: `DirBase::forEachDir` invokes the callback once for each child directory, in the
order of the map. In safe mode, whatever the callback does to the tree, the callback is
invoked on the children held at call time, one after the other: the pointers it is invoked
with are the values of the map in order, and the heap and user data at the end are what
these calls of `f` give, each call working on the heap and user data the call before left.
For a callback that leaves the heap as it is, on a map in key order, the unsafe mode (run
long enough to pass every entry) invokes the callback on the same pointers with the same
outcome, and its whole result equals that of the safe mode. -/
theorem C18_forEachDir_invocation_sequence {U : Type} (h : Heap) (self : Nat)
    (f : Heap → Nat → U → Heap × U) (user : U) (fuel : Nat) :
    (∃ r, DirBase.forEachDir h self f user true fuel = some r ∧
      r.calls = (h.subdirsOf self).map Prod.snd ∧
      (r.heap, r.user)
        = ((h.subdirsOf self).map Prod.snd).foldl (fun hu ptr => f hu.1 ptr hu.2) (h, user)) ∧
    (mapSorted (h.subdirsOf self) → (∀ hp p u, (f hp p u).1 = hp) →
      (h.subdirsOf self).length < fuel →
      (∃ r, DirBase.forEachDir h self f user false fuel = some r ∧
        r.calls = (h.subdirsOf self).map Prod.snd ∧
        (r.heap, r.user)
          = ((h.subdirsOf self).map Prod.snd).foldl (fun hu ptr => f hu.1 ptr hu.2) (h, user)) ∧
      DirBase.forEachDir h self f user false fuel = DirBase.forEachDir h self f user true fuel) := by
  have hsafe : ∃ r, DirBase.forEachDir h self f user true fuel = some r ∧
      r.calls = (h.subdirsOf self).map Prod.snd ∧
      (r.heap, r.user)
        = ((h.subdirsOf self).map Prod.snd).foldl (fun hu ptr => f hu.1 ptr hu.2) (h, user) := by
    refine ⟨_, rfl, ?_, ?_⟩
    · rw [iterCopy_calls]
      rfl
    · rw [iterCopy_state]
  refine ⟨hsafe, ?_⟩
  intro hs hf hfuel
  have heq : DirBase.forEachDir h self f user false fuel
      = DirBase.forEachDir h self f user true fuel := by
    unfold DirBase.forEachDir
    simp only [Bool.false_eq_true, if_false, if_true]
    exact iterLive_eq_iterCopy (fun hp => hp.subdirsOf self) f hf (h.subdirsOf self) hs
      (h.subdirsOf self) [] { heap := h, user := user, calls := [] } fuel rfl rfl hfuel
  refine ⟨?_, heq⟩
  rw [heq]
  exact hsafe

theorem strLess_trans (a b c : CStr) (hab : strLess a b = true) (hbc : strLess b c = true) :
    strLess a c = true := by
  induction a generalizing b c with
  | nil =>
    cases b with
    | nil => simp [strLess] at hab
    | cons y ys =>
      cases c with
      | nil => simp [strLess] at hbc
      | cons z zs => rfl
  | cons x xs ih =>
    cases b with
    | nil => simp [strLess] at hab
    | cons y ys =>
      cases c with
      | nil => simp [strLess] at hbc
      | cons z zs =>
        unfold strLess at hab hbc ⊢
        by_cases h1 : x.toNat < y.toNat
        · by_cases h2 : y.toNat < z.toNat
          · have : x.toNat < z.toNat := by omega
            simp [this]
          · by_cases h3 : z.toNat < y.toNat
            · simp [h2, h3] at hbc
            · have : x.toNat < z.toNat := by omega
              simp [this]
        · by_cases h1b : y.toNat < x.toNat
          · simp [h1, h1b] at hab
          · simp only [h1, h1b, if_false] at hab
            by_cases h2 : y.toNat < z.toNat
            · have : x.toNat < z.toNat := by omega
              simp [this]
            · by_cases h3 : z.toNat < y.toNat
              · simp [h2, h3] at hbc
              · simp only [h2, h3, if_false] at hbc
                have e1 : ¬ x.toNat < z.toNat := by omega
                have e2 : ¬ z.toNat < x.toNat := by omega
                simp only [e1, e2, if_false]
                exact ih ys zs hab hbc

theorem strLess_total (a b : CStr) (hne : a ≠ b) (hab : strLess a b = false) :
    strLess b a = true := by
  induction a generalizing b with
  | nil =>
    cases b with
    | nil => exact absurd rfl hne
    | cons y ys => simp [strLess] at hab
  | cons x xs ih =>
    cases b with
    | nil => rfl
    | cons y ys =>
      unfold strLess at hab ⊢
      by_cases h1 : x.toNat < y.toNat
      · simp [h1] at hab
      · by_cases h2 : y.toNat < x.toNat
        · simp [h2]
        · simp only [h1, h2, if_false] at hab ⊢
          have hxy : x = y := by
            have hn : x.toNat = y.toNat := by omega
            apply Char.ext
            apply UInt32.eq_of_val_eq
            apply Fin.ext
            exact hn
          subst hxy
          exact ih ys (fun e => hne (by rw [e])) hab

/-- The assignment `m[k] = v` keeps a map in key order. -/
theorem mapAssign_sorted (m : List (CStr × Nat)) (k : CStr) (v : Nat) (hs : mapSorted m) :
    mapSorted (mapAssign m k v) := by
  induction m with
  | nil => simp [mapAssign, mapSorted]
  | cons kv rest ih =>
    obtain ⟨k0, v0⟩ := kv
    unfold mapSorted at hs ih ⊢
    rw [List.pairwise_cons] at hs
    obtain ⟨hhead, hrest⟩ := hs
    unfold mapAssign
    by_cases hk : k = k0
    · subst hk
      simp only [if_true]
      rw [List.pairwise_cons]
      exact ⟨hhead, hrest⟩
    · simp only [hk, if_false]
      cases hlt : strLess k k0 with
      | true =>
        simp only [if_true]
        rw [List.pairwise_cons, List.pairwise_cons]
        refine ⟨?_, hhead, hrest⟩
        intro x hx
        rcases List.mem_cons.mp hx with h1 | h1
        · rw [h1]; exact hlt
        · exact strLess_trans _ _ _ hlt (hhead x h1)
      | false =>
        simp only [Bool.false_eq_true, if_false]
        rw [List.pairwise_cons]
        refine ⟨?_, ih hrest⟩
        intro x hx
        rcases mem_mapAssign _ _ _ _ hx with h1 | h1
        · exact hhead x h1
        · rw [h1]
          exact strLess_total k k0 hk hlt

/-- C18 at a concrete input: the directory loaded from `smallDisk` holds `x` (object 2) and
`y` (object 1). With the callback that notes the pointer it is given, both modes end with
the notes 2, 1. With the callback that also creates the child `z`, the safe mode still
visits 2 and 1 only, and `z` is in the tree afterwards. -/
theorem C18_forEachDir_invocation_sequence_witness :
    DirBase.forEachDir (DiskDir.load smallDisk diskTree 0) 0 noteCallback [] false 5
      = DirBase.forEachDir (DiskDir.load smallDisk diskTree 0) 0 noteCallback [] true 5 ∧
    (DirBase.forEachDir (DiskDir.load smallDisk diskTree 0) 0 noteCallback [] false 5).map
      (fun r => (r.calls, r.user)) = some ([2, 1], [2, 1]) ∧
    (∃ r, DirBase.forEachDir (DiskDir.load smallDisk diskTree 0) 0 growCallback [] true 0 = some r ∧
      r.calls = [2, 1] ∧ r.user = [2, 1] ∧ (r.heap.subdirsOf 0).map Prod.fst
        = ["x".toList, "y".toList, "z".toList]) :=
  ⟨((C18_forEachDir_invocation_sequence (DiskDir.load smallDisk diskTree 0) 0 noteCallback [] 5).2
      (by unfold mapSorted; decide) (fun _ _ _ => rfl) (by decide)).2,
    by decide,
    match (C18_forEachDir_invocation_sequence (DiskDir.load smallDisk diskTree 0) 0 growCallback
        [] 0).1 with
    | ⟨r, h1, h2, h3⟩ =>
      ⟨r, h1, h2.trans (by decide),
        (congrArg Prod.snd h3).trans (by decide),
        (congrArg (fun hu => (hu.1.subdirsOf 0).map Prod.fst) h3).trans (by decide)⟩⟩

theorem GetFileByLoader_frame (ldr : Option VFSLoader) (idx : Nat) (fn unmangled : CStr)
    (root : Option Nat) (s : VFSHelper) :
    (VFSHelper_GetFileByLoader ldr idx fn unmangled root s).1.loaders = s.loaders ∧
    (VFSHelper_GetFileByLoader ldr idx fn unmangled root s).1.vlist = s.vlist ∧
    (VFSHelper_GetFileByLoader ldr idx fn unmangled root s).1.merged = s.merged := by
  unfold VFSHelper_GetFileByLoader
  cases ldr with
  | none => exact ⟨rfl, rfl, rfl⟩
  | some l =>
    simp only
    cases l.Load fn unmangled with
    | none => exact ⟨rfl, rfl, rfl⟩
    | some fo => exact ⟨rfl, rfl, rfl⟩

theorem fileLoaderLoop_frame (fn unmangled : CStr) (L : List (Option VFSLoader)) :
    ∀ (idx : Nat) (s : VFSHelper),
    (VFSHelper.fileLoaderLoop fn unmangled L idx s).1.loaders = s.loaders ∧
    (VFSHelper.fileLoaderLoop fn unmangled L idx s).1.vlist = s.vlist ∧
    (VFSHelper.fileLoaderLoop fn unmangled L idx s).1.merged = s.merged := by
  induction L with
  | nil => intro idx s; exact ⟨rfl, rfl, rfl⟩
  | cons ldr rest ih =>
    intro idx s
    unfold VFSHelper.fileLoaderLoop
    have hf := GetFileByLoader_frame ldr idx fn unmangled s.merged s
    cases hg : VFSHelper_GetFileByLoader ldr idx fn unmangled s.merged s with
    | mk s1 r =>
      rw [hg] at hf
      simp only at hf
      cases r with
      | some vf => exact hf
      | none =>
        simp only
        obtain ⟨i1, i2, i3⟩ := ih (idx + 1) s1
        exact ⟨i1.trans hf.1, i2.trans hf.2.1, i3.trans hf.2.2⟩

theorem GetFile_frame (T : Tools) (s : VFSHelper) (fn : CStr) :
    (VFSHelper.GetFile T s fn).1.loaders = s.loaders ∧
    (VFSHelper.GetFile T s fn).1.vlist = s.vlist := by
  obtain ⟨heap, merged, vlist, loaders, calls⟩ := s
  unfold VFSHelper.GetFile
  cases merged with
  | none => exact ⟨rfl, rfl⟩
  | some m =>
    simp only
    cases DirBase.getFile heap m (T.FixPath fn) with
    | mk h1 r =>
      cases r with
      | some vf => exact ⟨rfl, rfl⟩
      | none =>
        simp only
        have := fileLoaderLoop_frame (T.FixPath fn) fn loaders 0
          (VFSHelper.mk h1 (some m) vlist loaders calls)
        exact ⟨this.1, this.2.1⟩

theorem archiveLoaderLoop_none (af : FileObj) (ctx : Option Nat) (L : List VFSArchiveLoader) :
    ∀ (fileLdr : Option VFSLoader) (n : Nat), (∀ x ∈ L, (x.Load af ctx).dir = none) →
    (VFSHelper.archiveLoaderLoop af ctx L fileLdr n).1 = none := by
  induction L with
  | nil => intro fileLdr n _; rfl
  | cons l rest ih =>
    intro fileLdr n hL
    unfold VFSHelper.archiveLoaderLoop
    rw [hL l (List.mem_cons_self _ _)]
    exact ih _ _ (fun x hx => hL x (List.mem_cons_of_mem _ hx))

theorem archiveLoaderLoop_first (af : FileObj) (ctx : Option Nat) (pre : List VFSArchiveLoader)
    (l : VFSArchiveLoader) (post : List VFSArchiveLoader) (ad : DirObj) :
    ∀ (fileLdr : Option VFSLoader) (n : Nat), (∀ x ∈ pre, (x.Load af ctx).dir = none) →
    (l.Load af ctx).dir = some ad →
    (VFSHelper.archiveLoaderLoop af ctx (pre ++ l :: post) fileLdr n).1 = some ad ∧
    (VFSHelper.archiveLoaderLoop af ctx (pre ++ l :: post) fileLdr n).2.2 = n + pre.length + 1 := by
  induction pre with
  | nil =>
    intro fileLdr n _ hl
    simp only [List.nil_append, VFSHelper.archiveLoaderLoop, hl, List.length_nil, Nat.add_zero,
      and_self]
  | cons x xs ih =>
    intro fileLdr n hpre hl
    have hx := hpre x (List.mem_cons_self _ _)
    rw [List.cons_append, VFSHelper.archiveLoaderLoop, hx]
    simp only
    obtain ⟨i1, i2⟩ := ih (((x.Load af ctx).ldrWrite).getD fileLdr) (n + 1)
      (fun y hy => hpre y (List.mem_cons_of_mem _ hy)) hl
    refine ⟨i1, ?_⟩
    rw [i2]
    simp only [List.length_cons]
    omega

/-- The parts of C13 that hold in every build: when `arch` does not resolve to a file, or no
archive loader returns a directory for it, `AddArchive` returns not-found, and neither the
loader list nor the mount list has changed; the directory that counts is the one of the
first loader that returns one, and no loader behind it is called. -/
theorem AddArchive_dispatch (T : Tools) (archLdrs : List VFSArchiveLoader) (s : VFSHelper)
    (arch : CStr) (ctx : Option Nat) :
    ((VFSHelper.GetFile T s arch).2 = none →
      VFSHelper.AddArchive T archLdrs s arch ctx = Outcome.ret ((VFSHelper.GetFile T s arch).1, none)) ∧
    (∀ af afo, (VFSHelper.GetFile T s arch).2 = some af →
      (VFSHelper.GetFile T s arch).1.heap.files[af]? = some afo →
      (∀ x ∈ archLdrs, (x.Load afo ctx).dir = none) →
      VFSHelper.AddArchive T archLdrs s arch ctx = Outcome.ret ((VFSHelper.GetFile T s arch).1, none)) ∧
    (VFSHelper.GetFile T s arch).1.loaders = s.loaders ∧
    (VFSHelper.GetFile T s arch).1.vlist = s.vlist ∧
    (∀ afo pre l post ad, archLdrs = pre ++ l :: post →
      (∀ x ∈ pre, (x.Load afo ctx).dir = none) → (l.Load afo ctx).dir = some ad →
      (VFSHelper.archiveLoaderLoop afo ctx archLdrs none 0).1 = some ad ∧
      (VFSHelper.archiveLoaderLoop afo ctx archLdrs none 0).2.2 = pre.length + 1) := by
  have hframe := GetFile_frame T s arch
  refine ⟨?_, ?_, hframe.1, hframe.2, ?_⟩
  · intro hnone
    unfold VFSHelper.AddArchive
    cases hg : VFSHelper.GetFile T s arch with
    | mk s1 r =>
      rw [hg] at hnone
      simp only at hnone
      subst hnone
      rfl
  · intro af afo hsome hobj hall
    unfold VFSHelper.AddArchive
    cases hg : VFSHelper.GetFile T s arch with
    | mk s1 r =>
      rw [hg] at hsome hobj
      simp only at hsome hobj
      subst hsome
      simp only [hobj]
      have hloop := archiveLoaderLoop_none afo ctx archLdrs none 0 hall
      cases hl : VFSHelper.archiveLoaderLoop afo ctx archLdrs none 0 with
      | mk a b =>
        rw [hl] at hloop
        simp only at hloop
        subst hloop
        rfl
  · intro afo pre l post ad hA hpre hl
    subst hA
    have := archiveLoaderLoop_first afo ctx pre l post ad none 0 hpre hl
    simpa using this

/-- C13, the code at the failing input (build with `assert` compiled out): the first archive
loader stores a companion file loader through `&fileLdr` and does not recognize the file;
the second recognizes it and supplies no companion. `AddArchive` returns the directory of
the second loader (object 1) and appends the companion of the first to the loader list,
which was empty. With the recognizing loader alone nothing is appended. In the build with
assertions the call stops at the `assert(false)` of `AddVFSDir`. -/
theorem C13_AddArchive_registers_companion_of_other_loader :
    (eagerArchiveLoader.Load ⟨"pack.bin".toList, "pack.bin".toList⟩ none).dir.isNone = true ∧
    (plainArchiveLoader.Load ⟨"pack.bin".toList, "pack.bin".toList⟩ none).dir.isSome = true ∧
    (plainArchiveLoader.Load ⟨"pack.bin".toList, "pack.bin".toList⟩ none).ldrWrite.isNone = true ∧
    archiveState.loaders.length = 0 ∧
    (VFSHelper.AddArchive releaseTools [eagerArchiveLoader, plainArchiveLoader] archiveState
        "pack.bin".toList none).val?.map (fun r => (r.2, r.1.loaders.length)) = some (some 1, 1) ∧
    (VFSHelper.AddArchive releaseTools [plainArchiveLoader] archiveState
        "pack.bin".toList none).val?.map (fun r => (r.2, r.1.loaders.length)) = some (some 1, 0) ∧
    (VFSHelper.AddArchive debugTools [plainArchiveLoader] archiveState
        "pack.bin".toList none).val?.isNone = true := by
  decide

theorem dirLoaderLoop_release (T : Tools) (hT : T.NDEBUG = true) (fn unmangled : CStr)
    (L : List (Option VFSLoader)) : ∀ (idx : Nat) (s : VFSHelper),
    ∃ r, VFSHelper.dirLoaderLoop T fn unmangled L idx s = Outcome.ret r := by
  induction L with
  | nil => intro idx s; exact ⟨_, rfl⟩
  | cons ldr rest ih =>
    intro idx s
    unfold VFSHelper.dirLoaderLoop
    have hstep : ∃ q, VFSHelper_GetDirByLoader T ldr idx fn unmangled s.merged s = Outcome.ret q := by
      unfold VFSHelper_GetDirByLoader
      cases ldr with
      | none => exact ⟨_, rfl⟩
      | some l =>
        simp only
        cases l.LoadDir fn unmangled with
        | none => exact ⟨_, rfl⟩
        | some dobj =>
          simp only [hT, if_true]
          exact ⟨_, rfl⟩
    obtain ⟨⟨s1, r1⟩, hq⟩ := hstep
    rw [hq]
    cases r1 with
    | some vd => exact ⟨_, rfl⟩
    | none => exact ih (idx + 1) s1

theorem GetDir_release (T : Tools) (hT : T.NDEBUG = true) (s : VFSHelper) (dn : CStr)
    (create : Bool) : ∃ r, VFSHelper.GetDir T s dn create = Outcome.ret r := by
  obtain ⟨heap, merged, vlist, loaders, calls⟩ := s
  unfold VFSHelper.GetDir
  cases merged with
  | none => exact ⟨_, rfl⟩
  | some m =>
    simp only
    split
    · exact ⟨_, rfl⟩
    · cases DirBase.getDir heap m (T.FixPath dn) false with
      | mk h1 r =>
        cases r with
        | some vd => exact ⟨_, rfl⟩
        | none =>
          simp only
          cases create with
          | false => exact ⟨_, rfl⟩
          | true =>
            simp only [if_true]
            obtain ⟨⟨s2, r2⟩, hq⟩ := dirLoaderLoop_release T hT (T.FixPath dn) dn loaders 0
              (VFSHelper.mk h1 (some m) vlist loaders calls)
            rw [hq]
            cases r2 with
            | some vd => exact ⟨_, rfl⟩
            | none => exact ⟨_, rfl⟩

theorem AddVFSDir_release (T : Tools) (hT : T.NDEBUG = true) (s : VFSHelper) (dir : Option Nat)
    (subdir : Option CStr) : ∃ r, VFSHelper.AddVFSDir T s dir subdir = Outcome.ret r := by
  unfold VFSHelper.AddVFSDir
  cases dir with
  | none => exact ⟨_, rfl⟩
  | some d =>
    simp only
    obtain ⟨⟨s2, r2⟩, hq⟩ := GetDir_release T hT
      (VFSHelper._StoreMountPoint T s ⟨d, subdir.getD (s.heap.fullname d)⟩)
      (subdir.getD (s.heap.fullname d)) true
    rw [hq]
    cases r2 with
    | none => exact ⟨_, rfl⟩
    | some sd =>
      simp only [hT, if_true]
      exact ⟨_, rfl⟩

/-- In the build with `assert` compiled out, `AddArchive` returns the pointer to the
directory given by the archive loader loop, allocated behind the heap that `GetFile` left. -/
theorem AddArchive_release_returns (T : Tools) (hT : T.NDEBUG = true)
    (archLdrs : List VFSArchiveLoader) (s : VFSHelper) (arch : CStr) (ctx : Option Nat)
    (af : Nat) (afo : FileObj) (ad : DirObj)
    (hsome : (VFSHelper.GetFile T s arch).2 = some af)
    (hobj : (VFSHelper.GetFile T s arch).1.heap.files[af]? = some afo)
    (hloop : (VFSHelper.archiveLoaderLoop afo ctx archLdrs none 0).1 = some ad) :
    ∃ s3, VFSHelper.AddArchive T archLdrs s arch ctx
      = Outcome.ret (s3, some (VFSHelper.GetFile T s arch).1.heap.dirs.length) := by
  unfold VFSHelper.AddArchive
  cases hg : VFSHelper.GetFile T s arch with
  | mk s1 r =>
    rw [hg] at hsome hobj
    simp only at hsome hobj
    subst hsome
    simp only [hobj]
    cases hl : VFSHelper.archiveLoaderLoop afo ctx archLdrs none 0 with
    | mk a b =>
      obtain ⟨fileLdr, n⟩ := b
      rw [hl] at hloop
      simp only at hloop
      subst hloop
      simp only
      split
      · next heq =>
        obtain ⟨r, hr⟩ := AddVFSDir_release T hT _ _ _
        rw [hr] at heq
        cases heq
      · next s3 b3 heq => exact ⟨s3, rfl⟩

end TTVFS
